import Mathlib

/-!
Shallow embedding of the SentencePiece-style (SPM) tokenizer of
`examples/gptneox-wip/spm_tokenizer.hpp`.

Modelling conventions:
* C++ `std::string` text is a byte sequence, modelled as `List Nat`
  (each element a byte value; `char` casts through `uint8_t` are `% 256`).
* `float` scores are only ever compared with `<` and `==` by the code
  (never combined arithmetically), so they are modelled by `Rat`, which is
  order-isomorphic to the finite floats actually stored in a vocabulary.
* `GGML_ASSERT` failures, `std::map::at` throws and the unreachable default
  branch are modelled as `Option`/`Except` failures.
* C++ loops are modelled by structurally recursive functions with an explicit
  fuel argument; callers pass a fuel that is proved (or easily seen) to be
  sufficient, so the functions compute by kernel reduction.
* The `char* text` pointer of `llm_symbol` is an offset (`start`) into the
  tokenized text.
-/

/-- Token type enum `llama_token_type` from the source. -/
inductive llama_token_type where
  | undefined
  | normal
  | unknown
  | control
  | user_defined
  | unused
  | byte
deriving DecidableEq

/-- Vocabulary type enum `llama_vocab_type` from the source. -/
inductive llama_vocab_type where
  | SPM
  | BPE
deriving DecidableEq

/-- One entry of `llama_vocab::id_to_token` (`struct token_data`). -/
structure token_data where
  text : List Nat
  score : Rat
  type : llama_token_type
deriving DecidableEq

/-- The vocabulary (`struct llama_vocab`).  `token_to_id` is an association
list (the C++ `unordered_map`: lookup finds the entry whose key equals the
query), `id_to_token` is the id-indexed vector. -/
structure llama_vocab where
  type : llama_vocab_type
  token_to_id : List (List Nat × Int)
  id_to_token : List token_data
  special_bos_id : Int
  special_eos_id : Int
  special_unk_id : Int
  special_sep_id : Int
  special_pad_id : Int
  linefeed_id : Int
deriving DecidableEq

/-- Lookup in `vocab.token_to_id` (C++ `find`), returning the id when the
exact byte string is present. -/
def token_to_id_find (vocab : llama_vocab) (t : List Nat) : Option Int :=
  (vocab.token_to_id.find? (fun p => p.1 == t)).map (fun p => p.2)

/-- Indexing `vocab.id_to_token[id]` guarded as the C++ code guards it:
ids that are negative or out of range yield `none`. -/
def tokenDataOf (vocab : llama_vocab) (id : Int) : Option token_data :=
  if 0 ≤ id then vocab.id_to_token.get? id.toNat else none

/-- `utf8_len`: code point length from the high nibble of the leading byte,
via the source's 16-entry lookup table.  The `char` argument is cast through
`uint8_t`, hence the `% 256`. -/
def utf8_len (src : Nat) : Nat :=
  [1, 1, 1, 1, 1, 1, 1, 1, 1, 1, 1, 1, 2, 2, 3, 4].getD ((src % 256) >>> 4) 1

/-- Body of `get_llama_escape_whitespac`'s loop: each byte is kept, except
that an ASCII space (32) becomes the 3-byte marker `\xe2\x96\x81`. -/
def escape_ws_go : List Nat → List Nat
  | [] => []
  | c :: rest => (if c = 32 then [226, 150, 129] else [c]) ++ escape_ws_go rest

/-- `get_llama_escape_whitespac`: the result starts with the 3-byte marker
(`result = "\xe2\x96\x81"` before the loop) and then appends the
space-escaped input. -/
def get_llama_escape_whitespac (text : List Nat) : List Nat :=
  226 :: 150 :: 129 :: escape_ws_go text

/-- `llama_unescape_whitespace`: `replace_all(word, "\xe2\x96\x81", " ")`
specialised to its fixed 3-byte search pattern (leftmost-first scan, exactly
as the C++ `replace_all` helper behaves for this pattern). -/
def llama_unescape_whitespace : List Nat → List Nat
  | 226 :: 150 :: 129 :: rest => 32 :: llama_unescape_whitespace rest
  | c :: rest => c :: llama_unescape_whitespace rest
  | [] => []

/-- Stated from the spec's words, for claim C5 only: "every space in the
input is expanded to the 3-byte marker ... and with no other change".
This is the transformation the spec describes, to be compared with the
source's `get_llama_escape_whitespac`. -/
def spec_replace_spaces : List Nat → List Nat
  | [] => []
  | c :: rest => (if c = 32 then [226, 150, 129] else [c]) ++ spec_replace_spaces rest

/-- Uppercase hex digit (ASCII code) of a nibble, as printed by `%02X`. -/
def hexDigitUpper (n : Nat) : Nat := if n < 10 then 48 + n else 55 + n

/-- The 6-byte text `<0xHH>` produced by `snprintf(buf, 7, "<0x%02X>", ch)`
for a byte value (`<` `0` `x` high-nibble low-nibble `>`). -/
def byteTokenText (b : Nat) : List Nat :=
  [60, 48, 120, hexDigitUpper (b / 16 % 16), hexDigitUpper (b % 16), 62]

/-- Value of one hex digit accepted by `strtol(..., 16)` (both cases),
`none` on the first non-digit, which stops the parse. -/
def hexVal (c : Nat) : Option Nat :=
  if 48 ≤ c ∧ c ≤ 57 then some (c - 48)
  else if 65 ≤ c ∧ c ≤ 70 then some (c - 55)
  else if 97 ≤ c ∧ c ≤ 102 then some (c - 87)
  else none

/-- Accumulating digit loop of `strtol(..., 16)`. -/
def strtol16_go : List Nat → Nat → Nat
  | [], acc => acc
  | c :: cs, acc =>
    match hexVal c with
    | some v => strtol16_go cs (16 * acc + v)
    | none => acc

/-- C-locale whitespace accepted by `strtol`: space and the five control
characters 9-13.  (Bytes above 127 would reach `isspace` as negative `char`
values, which is undefined behaviour in C; the model treats them as
non-space.) -/
def isSpaceByte (c : Nat) : Bool := c == 32 || (decide (9 ≤ c) && decide (c ≤ 13))

/-- Magnitude part of `strtol(..., 16)` after whitespace and sign: an
optional `0x`/`0X` prefix, then the accumulating hex-digit loop.  When `0x`
is followed by no hex digit, real `strtol` consumes just the `0` and yields
0, and the unconditional prefix skip also yields 0, so the two are
value-equivalent on every string. -/
def strtol16_mag : List Nat → Nat
  | 48 :: 120 :: rest => strtol16_go rest 0
  | 48 :: 88 :: rest => strtol16_go rest 0
  | s => strtol16_go s 0

/-- `strtol(buf, NULL, 16)`: skip leading C-locale whitespace, accept one
optional sign, an optional `0x` prefix, then accumulate hex digits (zero
when none follow).  The buffers parsed here are the at-most-2-byte
`substr(3, 2)` cuts, whose values never overflow `long`, so overflow
clamping needs no model. -/
def strtol16 (s : List Nat) : Int :=
  match s.dropWhile isSpaceByte with
  | 43 :: rest => (strtol16_mag rest : Int)
  | 45 :: rest => -(strtol16_mag rest : Int)
  | s1 => (strtol16_mag s1 : Int)

/-- `llama_token_to_byte`: asserts the token is a byte token (and in range,
since `id_to_token.at(id)` throws otherwise); `text.substr(3, 2)` throws
`std::out_of_range` (`none`) when the stored text is shorter than 3 bytes,
otherwise the cut is parsed base 16 and the `long` is converted to
`uint8_t` (mathematical mod 256, negative values wrapping). -/
def llama_token_to_byte (vocab : llama_vocab) (id : Int) : Option Nat :=
  match tokenDataOf vocab id with
  | none => none
  | some td =>
    if td.type = llama_token_type.byte then
      if td.text.length < 3 then none
      else some ((strtol16 ((td.text.drop 3).take 2) % 256).toNat)
    else none

/-- `llama_byte_to_token`: formats `<0x%02X>` for the byte and looks it up
with `token_to_id.at`, which throws (`none`) when absent. -/
def llama_byte_to_token (vocab : llama_vocab) (ch : Nat) : Option Int :=
  token_to_id_find vocab (byteTokenText (ch % 256))

/-- `struct llm_symbol`: `prev`/`next` span links (`-1` = none), the byte
offset `start` standing for the `const char * text` pointer, and byte
length `n`. -/
structure llm_symbol where
  prev : Int
  next : Int
  start : Nat
  n : Nat
deriving DecidableEq

/-- `struct llm_bigram_spm` (minus the nested comparator). -/
structure llm_bigram_spm where
  left : Int
  right : Int
  score : Rat
  size : Nat
deriving DecidableEq

/-- `llm_bigram_spm::comparator`:
`(l.score < r.score) || (l.score == r.score && l.left > r.left)`. -/
def bigramLt (l r : llm_bigram_spm) : Prop :=
  l.score < r.score ∨ (l.score = r.score ∧ r.left < l.left)

instance (l r : llm_bigram_spm) : Decidable (bigramLt l r) := by
  unfold bigramLt; infer_instance

/-- Popping from `std::priority_queue<llm_bigram_spm, ..., comparator>`:
returns a maximal element of the queue with respect to the comparator's
strict weak order (`top()`), together with the remaining elements.  Among
comparator-equivalent maxima the C++ heap order is unspecified; this model
fixes the earliest-listed one. -/
def popMax : List llm_bigram_spm → Option (llm_bigram_spm × List llm_bigram_spm)
  | [] => none
  | b :: bs =>
    match popMax bs with
    | none => some (b, [])
    | some (m, rest) => if bigramLt b m then some (m, b :: rest) else some (b, bs)

/-- Mutable state of `struct llm_tokenizer_spm`: the span table `symbols`,
the pending candidates `work_queue` (as the multiset of queued bigrams) and
the merge history `rev_merge` (`std::map` modelled as an association list
whose most recent insertion shadows older ones). -/
structure llm_tokenizer_spm where
  symbols : List llm_symbol
  work_queue : List llm_bigram_spm
  rev_merge : List (List Nat × Int × Int)
deriving DecidableEq

/-- Read `symbols[i]` for an `int` index.  Out-of-range access is undefined
behaviour in the C++; the model returns a dead dummy symbol there. -/
def symAt (syms : List llm_symbol) (i : Int) : llm_symbol :=
  if 0 ≤ i then syms.getD i.toNat ⟨-1, -1, 0, 0⟩ else ⟨-1, -1, 0, 0⟩

/-- Write `symbols[i] = v` for an `int` index (no-op when out of range,
again a don't-care undefined-behaviour region). -/
def setSym (syms : List llm_symbol) (i : Int) (v : llm_symbol) : List llm_symbol :=
  if 0 ≤ i then syms.set i.toNat v else syms

/-- Lookup in the `rev_merge` map. -/
def rev_merge_find (rev : List (List Nat × Int × Int)) (t : List Nat) : Option (Int × Int) :=
  (rev.find? (fun p => p.1 == t)).map (fun p => p.2)

/-- `llm_tokenizer_spm::try_add_bigram(left, right)`: no-op on a `-1`
boundary; build the concatenated text (`n_left + n_right` bytes from
`left`'s pointer), look it up, bound-check the id (`(size_t)id >= size`
catches negative and oversized ids alike), then push the candidate and
(re)write the merge-history entry. -/
def try_add_bigram (vocab : llama_vocab) (text : List Nat)
    (st : llm_tokenizer_spm) (left right : Int) : llm_tokenizer_spm :=
  if left = -1 ∨ right = -1 then st
  else
    let t := (text.drop (symAt st.symbols left).start).take
      ((symAt st.symbols left).n + (symAt st.symbols right).n)
    match token_to_id_find vocab t with
    | none => st
    | some id =>
      match tokenDataOf vocab id with
      | none => st
      | some tok_data =>
        { st with
          work_queue := ⟨left, right, tok_data.score, t.length⟩ :: st.work_queue,
          rev_merge := (t, left, right) :: st.rev_merge }

/-- The span-table mutation of one accepted merge: absorb `right` into
`left` (`left.n += right.n; right.n = 0`), splice the chain
(`left.next = right.next`) and, when that next exists, repoint its `prev`
to `left`. -/
def mergeSymbols (syms : List llm_symbol) (left right : Int) : List llm_symbol :=
  let left_sym := symAt syms left
  let right_sym := symAt syms right
  let syms1 := setSym syms left
    { left_sym with n := left_sym.n + right_sym.n, next := right_sym.next }
  let syms2 := setSym syms1 right { right_sym with n := 0 }
  if 0 ≤ right_sym.next then
    setSym syms2 right_sym.next { symAt syms2 right_sym.next with prev := left }
  else syms2

/-- One iteration of the merge loop `while (!work_queue.empty())`: pop the
best candidate; if a referenced span is dead or the recorded size is stale,
silently discard it; otherwise merge and try to seed two new candidates
around the merged span.  `none` means the queue is empty (loop exit). -/
def spmStep (vocab : llama_vocab) (text : List Nat)
    (st : llm_tokenizer_spm) : Option llm_tokenizer_spm :=
  match popMax st.work_queue with
  | none => none
  | some (bigram, rest) =>
    let left_sym := symAt st.symbols bigram.left
    let right_sym := symAt st.symbols bigram.right
    if left_sym.n = 0 ∨ right_sym.n = 0 ∨ left_sym.n + right_sym.n ≠ bigram.size then
      some { st with work_queue := rest }
    else
      let syms := mergeSymbols st.symbols bigram.left bigram.right
      let st1 : llm_tokenizer_spm :=
        { symbols := syms, work_queue := rest, rev_merge := st.rev_merge }
      let st2 := try_add_bigram vocab text st1 (symAt syms bigram.left).prev bigram.left
      some (try_add_bigram vocab text st2 bigram.left (symAt syms bigram.left).next)

/-- Run the merge loop for at most `k` iterations; once `spmStep` reports an
empty queue the state is a fixpoint.  The callers pass a fuel that is large
enough to reach the fixpoint (see `spmLoop_fix`), so this equals the
unbounded C++ `while` loop. -/
def spmLoop (vocab : llama_vocab) (text : List Nat) :
    Nat → llm_tokenizer_spm → llm_tokenizer_spm
  | 0, st => st
  | k + 1, st =>
    match spmStep vocab text st with
    | none => st
    | some st' => spmLoop vocab text k st'

/-- The seeding loop `for (size_t i = 1; i < symbols.size(); ++i)
try_add_bigram(i - 1, i)`. -/
def seedBigrams (vocab : llama_vocab) (text : List Nat)
    (st : llm_tokenizer_spm) : llm_tokenizer_spm :=
  (List.range' 1 (st.symbols.length - 1)).foldl
    (fun s i => try_add_bigram vocab text s ((i : Int) - 1) (i : Int)) st

/-- Splitting loop of `tokenize`: one `llm_symbol` per UTF-8 code point.
`fuel` bounds the iteration count (the callers pass `text.length`, which is
sufficient because `utf8_len` is positive); `none` models the
`GGML_ASSERT(offs + len <= text.size())` failure on a length that would
overrun the text. -/
def splitSymsGo (text : List Nat) : Nat → Nat → Nat → Option (List llm_symbol)
  | 0, offs, _ => if offs < text.length then none else some []
  | fuel + 1, offs, index =>
    if offs < text.length then
      let len := utf8_len (text.getD offs 0)
      if offs + len ≤ text.length then
        (splitSymsGo text fuel (offs + len) (index + 1)).map
          (fun rest =>
            ⟨(index : Int) - 1,
             if offs + len = text.length then -1 else (index : Int) + 1,
             offs, len⟩ :: rest)
      else none
    else some []

/-- Span-table construction on a whole text. -/
def splitSyms (text : List Nat) : Option (List llm_symbol) :=
  splitSymsGo text text.length 0 0

/-- Walk of the final chain `for (int i = 0; i != -1; i = symbols[i].next)`,
started at `i`, collecting the visited indices.  `none` when the fuel runs
out (a cycle; proved unreachable from the maintained chain invariant). -/
def walkChain (syms : List llm_symbol) : Nat → Int → Option (List Nat)
  | 0, i => if i = -1 then some [] else none
  | fuel + 1, i =>
    if i = -1 then some []
    else (walkChain syms fuel (symAt syms i).next).map (i.toNat :: ·)

/-- Error taxonomy for the fallible paths of tokenization. -/
inductive tok_err where
  | bad_utf8
  | byte_token_missing
  | fuel_out
  | chain_cycle
  | not_spm
deriving DecidableEq

/-- Byte-fallback emission loop of `resegment`: one
`llama_byte_to_token` id per raw byte; a missing `<0xHH>` vocabulary entry
is the fatal `std::out_of_range` of `token_to_id.at`. -/
def byteFallbackIds (vocab : llama_vocab) : List Nat → Option (List Int)
  | [] => some []
  | c :: cs =>
    match llama_byte_to_token vocab c with
    | none => none
    | some id => (byteFallbackIds vocab cs).map (id :: ·)

/-- `llm_tokenizer_spm::resegment`: emit the span's text directly when it is
a vocabulary token; otherwise decompose through the merge history, or fall
back to one byte token per byte when no history entry exists.  The C++
function recurses without fuel; `fuel_out` is proved unreachable
(claim C7). -/
def resegment (vocab : llama_vocab) (text : List Nat) (syms : List llm_symbol)
    (rev : List (List Nat × Int × Int)) : Nat → llm_symbol → Except tok_err (List Int)
  | fuel, sym =>
    let t := (text.drop sym.start).take sym.n
    match token_to_id_find vocab t with
    | some id => Except.ok [id]
    | none =>
      match rev_merge_find rev t with
      | none =>
        match byteFallbackIds vocab t with
        | none => Except.error tok_err.byte_token_missing
        | some ids => Except.ok ids
      | some (l, r) =>
        match fuel with
        | 0 => Except.error tok_err.fuel_out
        | fuel' + 1 =>
          match resegment vocab text syms rev fuel' (symAt syms l) with
          | Except.error e => Except.error e
          | Except.ok a =>
            match resegment vocab text syms rev fuel' (symAt syms r) with
            | Except.error e => Except.error e
            | Except.ok b => Except.ok (a ++ b)

/-- The final output loop of `tokenize`: resegment each surviving span in
chain order, concatenating the emitted ids. -/
def resegmentAll (vocab : llama_vocab) (text : List Nat) (syms : List llm_symbol)
    (rev : List (List Nat × Int × Int)) (fuel : Nat) : List Nat → Except tok_err (List Int)
  | [] => Except.ok []
  | i :: is =>
    match resegment vocab text syms rev fuel (symAt syms (i : Int)) with
    | Except.error e => Except.error e
    | Except.ok a =>
      match resegmentAll vocab text syms rev fuel is with
      | Except.error e => Except.error e
      | Except.ok b => Except.ok (a ++ b)

/-- `llm_tokenizer_spm::tokenize`: split into code-point spans, seed the
queue with all adjacent pairs, run the merge loop to completion (the fuel
`3 * |symbols| + |queue| + 1` dominates the loop measure, see
`spmLoop_fix`), then walk the chain from span 0 and resegment. -/
def llm_tokenizer_spm_tokenize (vocab : llama_vocab) (text : List Nat) :
    Except tok_err (List Int) :=
  match splitSyms text with
  | none => Except.error tok_err.bad_utf8
  | some syms0 =>
    let st0 := seedBigrams vocab text ⟨syms0, [], []⟩
    let stF := spmLoop vocab text (3 * st0.symbols.length + st0.work_queue.length + 1) st0
    match walkChain stF.symbols (stF.symbols.length + 1) 0 with
    | none => Except.error tok_err.chain_cycle
    | some idxs => resegmentAll vocab text stF.symbols stF.rev_merge (text.length + 1) idxs

/-- `spm_tokenize(vocab, raw_text, bos, escape)`: empty input returns the
empty sequence before anything else; otherwise, for an SPM vocabulary, the
bos id is pushed first when requested, the text is optionally
whitespace-escaped, and the tokenizer output is appended.  The `default`
branch is `GGML_ASSERT(false)`. -/
def spm_tokenize (vocab : llama_vocab) (raw_text : List Nat) (bos escape : Bool) :
    Except tok_err (List Int) :=
  if raw_text = [] then Except.ok []
  else
    match vocab.type with
    | llama_vocab_type.SPM =>
      let pre := if bos then [vocab.special_bos_id] else []
      let text := if escape then get_llama_escape_whitespac raw_text else raw_text
      (llm_tokenizer_spm_tokenize vocab text).map (fun out => pre ++ out)
    | llama_vocab_type.BPE => Except.error tok_err.not_spm

/-- `llama_token_to_str(vocab, token, buf, length)`: the id's type flag
selects the emitted bytes; the return value is the number of bytes written,
or its negation when the buffer is too small.  The written bytes are
returned in place of `buf`; `none` models the undefined indexing of an
out-of-range id. -/
def llama_token_to_str (vocab : llama_vocab) (token : Int) (length : Int) :
    Option (Int × List Nat) :=
  match tokenDataOf vocab token with
  | none => none
  | some td =>
    if td.type = llama_token_type.normal then
      let result :=
        if vocab.type = llama_vocab_type.SPM then llama_unescape_whitespace td.text
        else td.text
      if length < (result.length : Int) then some (-(result.length : Int), [])
      else some ((result.length : Int), result)
    else if td.type = llama_token_type.unknown then
      if length < 3 then some (-3, []) else some (3, [226, 150, 133])
    else if td.type = llama_token_type.control then some (0, [])
    else if td.type = llama_token_type.byte then
      if length < 1 then some (-1, [])
      else
        match llama_token_to_byte vocab token with
        | none => none
        | some b => some (1, [b])
    else some (0, [])

/-- `llama_token_to_text`: call `llama_token_to_str` with an 8-byte buffer,
and on a negative return retry with the exact size, asserting the retry
agrees. -/
def llama_token_to_text (vocab : llama_vocab) (token : Int) : Option (List Nat) :=
  match llama_token_to_str vocab token 8 with
  | none => none
  | some (n, bytes) =>
    if n < 0 then
      match llama_token_to_str vocab token (-n) with
      | none => none
      | some (m, bytes2) => if m = -n then some bytes2 else none
    else some bytes

deriving instance DecidableEq for Except

/-- Chain predicate for the span table: starting after predecessor index `p`
at byte offset `o`, the listed indices are in-range live spans whose
`prev`/`next` fields link them in order, whose `start`/`n` ranges tile the
text contiguously up to offset `L`, and whose indices strictly increase. -/
def chainLinked (syms : List llm_symbol) (L : Nat) : Int → Nat → List Nat → Prop
  | _, o, [] => o = L
  | p, o, i :: rest =>
    p < (i : Int) ∧ i < syms.length ∧
    (symAt syms (i : Int)).prev = p ∧ (symAt syms (i : Int)).start = o ∧
    0 < (symAt syms (i : Int)).n ∧
    (symAt syms (i : Int)).next = (match rest with | [] => -1 | j :: _ => (j : Int)) ∧
    chainLinked syms L (i : Int) (o + (symAt syms (i : Int)).n) rest

/-- Every span index outside the listed chain is dead (`n = 0`). -/
def deadOutside (syms : List llm_symbol) (idxs : List Nat) : Prop :=
  ∀ j, j < syms.length → j ∉ idxs → (symAt syms (j : Int)).n = 0

/-- Span `j` exists and is live. -/
def aliveAt (syms : List llm_symbol) (j : Nat) : Prop :=
  j < syms.length ∧ 0 < (symAt syms (j : Int)).n

/-- Spans `l` and `r` are both live and no live span lies strictly between
their indices (under the chain invariant this says `r` is `l`'s successor). -/
def adjacentAt (syms : List llm_symbol) (l r : Nat) : Prop :=
  aliveAt syms l ∧ aliveAt syms r ∧ l < r ∧ ∀ m, l < m → m < r → ¬ aliveAt syms m

/-- Health of one queued candidate: its references are an ordered in-range
pair, and whenever both referenced spans are still live, either the
candidate is exact (adjacent spans whose current sizes sum to the recorded
size) or it is stale with a recorded size strictly less than the current
sum (so the pop-time validity check rejects it). -/
def bigramOK (syms : List llm_symbol) (b : llm_bigram_spm) : Prop :=
  ∃ l r : Nat, b.left = (l : Int) ∧ b.right = (r : Int) ∧ l < r ∧ r < syms.length ∧
    (0 < (symAt syms (l : Int)).n → 0 < (symAt syms (r : Int)).n →
      (adjacentAt syms l r ∧
        (symAt syms (l : Int)).n + (symAt syms (r : Int)).n = b.size) ∨
      b.size < (symAt syms (l : Int)).n + (symAt syms (r : Int)).n)

/-- Chain invariant of the span table: some index list starting at span 0
is linked and tiles the whole text, and every other span is dead. -/
def chainInv (syms : List llm_symbol) (L : Nat) : Prop :=
  ∃ idxs : List Nat,
    idxs.head? = some 0 ∧ chainLinked syms L (-1) 0 idxs ∧ deadOutside syms idxs

/-- Full loop invariant of the merge engine. -/
def spmInv (text : List Nat) (st : llm_tokenizer_spm) : Prop :=
  chainInv st.symbols text.length ∧ ∀ b ∈ st.work_queue, bigramOK st.symbols b

/-- The listed spans cover `[o, L)` contiguously in order: each starts where
the previous one ended, with no gap and no overlap. -/
def spansTile (syms : List llm_symbol) : List Nat → Nat → Nat → Prop
  | [], o, L => o = L
  | i :: is, o, L =>
    (symAt syms (i : Int)).start = o ∧
    spansTile syms is (o + (symAt syms (i : Int)).n) L

/-- Claim C2's partition property: the walk along `next` from the first span
terminates, visits only live spans, visits every live span, and the visited
spans' byte ranges tile the text exactly once in original order. -/
def spansPartitionText (syms : List llm_symbol) (text : List Nat) : Prop :=
  ∃ idxs : List Nat,
    walkChain syms (syms.length + 1) 0 = some idxs ∧
    (∀ i ∈ idxs, 0 < (symAt syms (i : Int)).n) ∧
    (∀ j, j < syms.length → 0 < (symAt syms (j : Int)).n → j ∈ idxs) ∧
    spansTile syms idxs 0 text.length

/-- Every key in the merge history is a vocabulary hit (maintained because
`try_add_bigram` records an entry only after a successful lookup). -/
def revVocabOK (vocab : llama_vocab) (rev : List (List Nat × Int × Int)) : Prop :=
  ∀ e ∈ rev, token_to_id_find vocab e.1 ≠ none

/-- Number of live spans. -/
def liveCount (syms : List llm_symbol) : Nat :=
  syms.countP (fun s => decide (0 < s.n))

/-- Termination measure of the merge loop: an invalid pop removes one queue
element; a valid merge kills one span and pushes at most two candidates. -/
def spmMeasure (st : llm_tokenizer_spm) : Nat :=
  3 * liveCount st.symbols + st.work_queue.length

/-- Example vocabulary of claim C3's first scenario:
`"a"` score 1, `"b"` score 1, `"ab"` score 2 (all normal tokens). -/
def exVocabABab : llama_vocab :=
  { type := llama_vocab_type.SPM
    token_to_id := [([97], 0), ([98], 1), ([97, 98], 2)]
    id_to_token := [⟨[97], 1, llama_token_type.normal⟩,
                    ⟨[98], 1, llama_token_type.normal⟩,
                    ⟨[97, 98], 2, llama_token_type.normal⟩]
    special_bos_id := 1, special_eos_id := 2, special_unk_id := 0
    special_sep_id := -1, special_pad_id := -1, linefeed_id := 13 }

/-- Example vocabulary of claim C3's second scenario: only `"a"` and `"b"`,
no `"ab"`. -/
def exVocabAB : llama_vocab :=
  { type := llama_vocab_type.SPM
    token_to_id := [([97], 0), ([98], 1)]
    id_to_token := [⟨[97], 1, llama_token_type.normal⟩,
                    ⟨[98], 1, llama_token_type.normal⟩]
    special_bos_id := 1, special_eos_id := 2, special_unk_id := 0
    special_sep_id := -1, special_pad_id := -1, linefeed_id := 13 }

/-- Example vocabulary with one byte token `<0x41>` (for byte-fallback
round-trip witnesses) plus the claim C9 witness tokens: a normal token
containing the escape marker, an unknown token and a control token. -/
def exVocabByte : llama_vocab :=
  { type := llama_vocab_type.SPM
    token_to_id := [([60, 48, 120, 52, 49, 62], 0), ([226, 150, 129, 104, 105], 1),
                    ([117, 110, 107], 2), ([98, 111, 115], 3)]
    id_to_token := [⟨[60, 48, 120, 52, 49, 62], 0, llama_token_type.byte⟩,
                    ⟨[226, 150, 129, 104, 105], (-1), llama_token_type.normal⟩,
                    ⟨[117, 110, 107], 0, llama_token_type.unknown⟩,
                    ⟨[98, 111, 115], 0, llama_token_type.control⟩,
                    ⟨[], 0, llama_token_type.user_defined⟩]
    special_bos_id := 3, special_eos_id := 2, special_unk_id := 2
    special_sep_id := -1, special_pad_id := -1, linefeed_id := 13 }

/-- The dead dummy symbol used for out-of-range reads. -/
def dummySym : llm_symbol := ⟨-1, -1, 0, 0⟩

theorem symAt_coe (syms : List llm_symbol) (j : Nat) :
    symAt syms (j : Int) = syms.getD j dummySym := by
  unfold symAt dummySym
  rw [if_pos (by positivity)]
  simp

theorem symAt_oob (syms : List llm_symbol) (j : Nat) (h : syms.length ≤ j) :
    symAt syms (j : Int) = dummySym := by
  rw [symAt_coe]
  unfold dummySym
  simp [List.getD_eq_getElem?_getD, List.getElem?_eq_none h]

theorem symAt_neg (syms : List llm_symbol) (i : Int) (h : i < 0) :
    symAt syms i = dummySym := by
  unfold symAt dummySym
  rw [if_neg (by omega)]

theorem setSym_length (syms : List llm_symbol) (i : Int) (v : llm_symbol) :
    (setSym syms i v).length = syms.length := by
  unfold setSym
  split <;> simp

theorem symAt_setSym_ne (syms : List llm_symbol) (i j : Int) (v : llm_symbol)
    (h : i ≠ j) : symAt (setSym syms i v) j = symAt syms j := by
  unfold setSym symAt
  by_cases hi : 0 ≤ i
  · by_cases hj : 0 ≤ j
    · rw [if_pos hi, if_pos hj, if_pos hj]
      have hij : i.toNat ≠ j.toNat := by omega
      simp [List.getD_eq_getElem?_getD, List.getElem?_set_ne hij]
    · rw [if_pos hi, if_neg hj, if_neg hj]
  · rw [if_neg hi]

theorem symAt_setSym_self (syms : List llm_symbol) (i : Int) (v : llm_symbol)
    (hi : 0 ≤ i) (hlt : i.toNat < syms.length) :
    symAt (setSym syms i v) i = v := by
  unfold setSym symAt
  rw [if_pos hi, if_pos hi]
  simp [List.getD_eq_getElem?_getD, List.getElem?_set_self, hlt,
    List.getElem?_eq_getElem]

theorem popMax_eq_none {q : List llm_bigram_spm} (h : popMax q = none) : q = [] := by
  cases q with
  | nil => rfl
  | cons b bs =>
    unfold popMax at h
    cases hq : popMax bs with
    | none => rw [hq] at h; simp at h
    | some p =>
      obtain ⟨m', rest'⟩ := p
      rw [hq] at h
      by_cases hlt : bigramLt b m' <;> simp [hlt] at h

theorem popMax_mem {q : List llm_bigram_spm} {m : llm_bigram_spm}
    {rest : List llm_bigram_spm} (h : popMax q = some (m, rest)) : m ∈ q := by
  induction q generalizing m rest with
  | nil => simp [popMax] at h
  | cons b bs ih =>
    unfold popMax at h
    cases hq : popMax bs with
    | none => rw [hq] at h; simp at h; simp [h.1]
    | some p =>
      obtain ⟨m', rest'⟩ := p
      rw [hq] at h
      by_cases hlt : bigramLt b m'
      · simp [hlt] at h
        right
        exact h.1 ▸ ih hq
      · simp [hlt] at h
        simp [h.1]

theorem popMax_rest_mem {q : List llm_bigram_spm} {m : llm_bigram_spm}
    {rest : List llm_bigram_spm} (h : popMax q = some (m, rest)) :
    ∀ x ∈ rest, x ∈ q := by
  induction q generalizing m rest with
  | nil => simp [popMax] at h
  | cons b bs ih =>
    unfold popMax at h
    cases hq : popMax bs with
    | none =>
      rw [hq] at h; simp at h
      rw [h.2]
      intro x hx
      simp at hx
    | some p =>
      obtain ⟨m', rest'⟩ := p
      rw [hq] at h
      by_cases hlt : bigramLt b m'
      · simp [hlt] at h
        rw [← h.2]
        intro x hx
        rcases List.mem_cons.mp hx with hx | hx
        · simp [hx]
        · exact List.mem_cons_of_mem b (ih hq x hx)
      · simp [hlt] at h
        rw [← h.2]
        intro x hx
        exact List.mem_cons_of_mem b hx

theorem popMax_rest_length {q : List llm_bigram_spm} {m : llm_bigram_spm}
    {rest : List llm_bigram_spm} (h : popMax q = some (m, rest)) :
    rest.length + 1 = q.length := by
  induction q generalizing m rest with
  | nil => simp [popMax] at h
  | cons b bs ih =>
    unfold popMax at h
    cases hq : popMax bs with
    | none =>
      rw [hq] at h; simp at h
      rw [h.2]
      have := popMax_eq_none hq
      subst this
      simp
    | some p =>
      obtain ⟨m', rest'⟩ := p
      rw [hq] at h
      by_cases hlt : bigramLt b m'
      · simp [hlt] at h
        rw [← h.2]
        simpa using ih hq
      · simp [hlt] at h
        rw [← h.2]
        simp

theorem popMax_is_max {q : List llm_bigram_spm} {m : llm_bigram_spm}
    {rest : List llm_bigram_spm} (h : popMax q = some (m, rest)) :
    ∀ b ∈ q, b.score ≤ m.score ∧ (b.score = m.score → m.left ≤ b.left) := by
  induction q generalizing m rest with
  | nil => simp [popMax] at h
  | cons b bs ih =>
    unfold popMax at h
    cases hq : popMax bs with
    | none =>
      rw [hq] at h
      simp at h
      have hbs := popMax_eq_none hq
      subst hbs
      intro x hx
      simp at hx
      subst hx
      rw [← h.1]
      exact ⟨le_refl _, fun _ => le_refl _⟩
    | some p =>
      obtain ⟨m', rest'⟩ := p
      rw [hq] at h
      by_cases hlt : bigramLt b m'
      · simp [hlt] at h
        obtain ⟨hm, _⟩ := h
        subst hm
        intro x hx
        rcases List.mem_cons.mp hx with hx | hx
        · subst hx
          rcases hlt with hs | ⟨hs, hl⟩
          · exact ⟨le_of_lt hs, fun he => absurd hs (by rw [he]; exact lt_irrefl _)⟩
          · exact ⟨le_of_eq hs, fun _ => le_of_lt hl⟩
        · exact ih hq x hx
      · simp [hlt] at h
        obtain ⟨hm, _⟩ := h
        subst hm
        unfold bigramLt at hlt
        push_neg at hlt
        obtain ⟨h1, h2⟩ := hlt
        intro x hx
        rcases List.mem_cons.mp hx with hx | hx
        · subst hx
          exact ⟨le_refl _, fun _ => le_refl _⟩
        · obtain ⟨hx1, hx2⟩ := ih hq x hx
          refine ⟨hx1.trans h1, fun he => ?_⟩
          have hxm' : x.score = m'.score := by linarith
          have hbm' : b.score = m'.score := by linarith
          exact (h2 hbm').trans (hx2 hxm')

theorem utf8_len_shift (b : Nat) : utf8_len b =
    [1, 1, 1, 1, 1, 1, 1, 1, 1, 1, 1, 1, 2, 2, 3, 4].getD ((b % 256) / 16) 1 := by
  unfold utf8_len
  rw [Nat.shiftRight_eq_div_pow]

theorem utf8_len_cases (b : Nat) :
    utf8_len b = 1 ∨ utf8_len b = 2 ∨ utf8_len b = 3 ∨ utf8_len b = 4 := by
  rw [utf8_len_shift]
  have hk : (b % 256) / 16 < 16 := by omega
  set k := (b % 256) / 16 with hkdef
  clear_value k
  interval_cases k <;> simp

theorem utf8_len_pos (b : Nat) : 0 < utf8_len b := by
  rcases utf8_len_cases b with h | h | h | h <;> omega

theorem utf8_len_cont (b : Nat) (h1 : 8 ≤ (b % 256) >>> 4) (h2 : (b % 256) >>> 4 ≤ 11) :
    utf8_len b = 1 := by
  rw [Nat.shiftRight_eq_div_pow] at h1 h2
  rw [utf8_len_shift]
  norm_num at h1 h2
  have hk : (b % 256) / 16 < 16 := by omega
  set k := (b % 256) / 16 with hkdef
  clear_value k
  interval_cases k <;> simp

theorem splitSymsGo_of_ge (text : List Nat) (fuel offs index : Nat)
    (l : List llm_symbol) (h : splitSymsGo text fuel offs index = some l)
    (hge : text.length ≤ offs) : l = [] := by
  cases fuel with
  | zero =>
    unfold splitSymsGo at h
    rw [if_neg (by omega)] at h
    simpa using h.symm
  | succ fuel =>
    unfold splitSymsGo at h
    rw [if_neg (by omega)] at h
    simpa using h.symm

theorem splitSymsGo_nil_ge (text : List Nat) (fuel offs index : Nat)
    (h : splitSymsGo text fuel offs index = some []) : text.length ≤ offs := by
  by_contra hlt
  push_neg at hlt
  cases fuel with
  | zero =>
    unfold splitSymsGo at h
    rw [if_pos hlt] at h
    simp at h
  | succ fuel =>
    unfold splitSymsGo at h
    rw [if_pos hlt] at h
    by_cases hfit : offs + utf8_len (text.getD offs 0) ≤ text.length
    · rw [if_pos hfit] at h
      cases hin : splitSymsGo text fuel (offs + utf8_len (text.getD offs 0)) (index + 1) <;>
        rw [hin] at h <;> simp at h
    · rw [if_neg hfit] at h
      simp at h

theorem splitSymsGo_cons_elim (text : List Nat) (fuel offs index : Nat)
    (s : llm_symbol) (l' : List llm_symbol)
    (h : splitSymsGo text fuel offs index = some (s :: l')) :
    ∃ fuel', fuel = fuel' + 1 ∧ offs < text.length ∧
      offs + utf8_len (text.getD offs 0) ≤ text.length ∧
      s = ⟨(index : Int) - 1,
           if offs + utf8_len (text.getD offs 0) = text.length then -1 else (index : Int) + 1,
           offs, utf8_len (text.getD offs 0)⟩ ∧
      splitSymsGo text fuel' (offs + utf8_len (text.getD offs 0)) (index + 1) = some l' := by
  cases fuel with
  | zero =>
    unfold splitSymsGo at h
    split at h <;> simp at h
  | succ fuel =>
    unfold splitSymsGo at h
    by_cases hlt : offs < text.length
    · rw [if_pos hlt] at h
      by_cases hfit : offs + utf8_len (text.getD offs 0) ≤ text.length
      · rw [if_pos hfit] at h
        cases hin : splitSymsGo text fuel (offs + utf8_len (text.getD offs 0)) (index + 1) with
        | none => rw [hin] at h; simp at h
        | some rest =>
          rw [hin, Option.map_some'] at h
          have h3 := List.cons.inj (Option.some.inj h)
          exact ⟨fuel, rfl, hlt, hfit, h3.1.symm, by rw [hin, h3.2]⟩
      · rw [if_neg hfit] at h
        simp at h
    · rw [if_neg hlt] at h
      simp at h

theorem splitSymsGo_chain (text : List Nat) (l : List llm_symbol) :
    ∀ fuel offs index, splitSymsGo text fuel offs index = some l →
    offs ≤ text.length →
    ∀ syms : List llm_symbol, syms.length = index + l.length →
    (∀ k, k < l.length → symAt syms ((index + k : Nat) : Int) = l.getD k dummySym) →
    chainLinked syms text.length ((index : Int) - 1) offs (List.range' index l.length) := by
  induction l with
  | nil =>
    intro fuel offs index h hle syms _ _
    have := splitSymsGo_nil_ge text fuel offs index h
    show (offs = text.length)
    omega
  | cons s l' ih =>
    intro fuel offs index h hle syms hlen hget
    obtain ⟨fuel', _, hlt, hfit, hs, hrec⟩ := splitSymsGo_cons_elim text fuel offs index s l' h
    have hslen : (s :: l').length = l'.length + 1 := by simp
    have hrange : List.range' index (s :: l').length = index :: List.range' (index + 1) l'.length := by
      simp [List.range'_succ]
    rw [hrange]
    have hsym0 : symAt syms ((index : Int)) = s := by
      have := hget 0 (by simp)
      simpa using this
    refine ⟨by omega, by omega, ?_, ?_, ?_, ?_, ?_⟩
    · rw [hsym0, hs]
    · rw [hsym0, hs]
    · rw [hsym0, hs]
      exact utf8_len_pos _
    · rw [hsym0, hs]
      cases hl' : l' with
      | nil =>
        have hnilge : text.length ≤ offs + utf8_len (text.getD offs 0) := by
          subst hl'
          exact splitSymsGo_nil_ge text fuel' _ _ hrec
        have heq : offs + utf8_len (text.getD offs 0) = text.length := by omega
        show (if offs + utf8_len (text.getD offs 0) = text.length then (-1 : Int)
          else (index : Int) + 1) = -1
        rw [if_pos heq]
      | cons s' l'' =>
        have hne : offs + utf8_len (text.getD offs 0) ≠ text.length := by
          intro heq
          have hcontra : s' :: l'' = [] := by
            subst hl'
            exact splitSymsGo_of_ge text fuel' _ _ _ hrec (by omega)
          simp at hcontra
        show (if offs + utf8_len (text.getD offs 0) = text.length then (-1 : Int)
          else (index : Int) + 1) =
          (match List.range' (index + 1) (s' :: l'').length with
            | [] => (-1 : Int) | j :: _ => (j : Int))
        rw [if_neg hne]
        have : List.range' (index + 1) (s' :: l'').length =
            (index + 1) :: List.range' (index + 2) l''.length := by
          simp [List.range'_succ]
        rw [this]
        push_cast
        ring
    · rw [hsym0, hs]
      have := ih fuel' (offs + utf8_len (text.getD offs 0)) (index + 1) hrec hfit syms
        (by simp at hlen ⊢; omega)
        (fun k hk => by
          have := hget (k + 1) (by simp; omega)
          have harith : index + (k + 1) = index + 1 + k := by omega
          rw [harith] at this
          simpa using this)
      have hcast : ((index + 1 : Nat) : Int) - 1 = (index : Int) := by push_cast; ring
      rw [hcast] at this
      exact this

theorem splitSyms_chain (text : List Nat) (syms0 : List llm_symbol)
    (h : splitSyms text = some syms0) :
    chainLinked syms0 text.length (-1) 0 (List.range' 0 syms0.length) := by
  have := splitSymsGo_chain text syms0 text.length 0 0 h (by omega) syms0 (by simp)
    (fun k hk => by simp [symAt_coe])
  simpa using this

theorem splitSyms_ne_nil (text : List Nat) (syms0 : List llm_symbol)
    (h : splitSyms text = some syms0) (hne : text ≠ []) : syms0 ≠ [] := by
  intro h0
  subst h0
  have := splitSymsGo_nil_ge text text.length 0 0 h
  have : text.length = 0 := by omega
  exact hne (List.eq_nil_of_length_eq_zero this)

theorem chainLinked_mem {syms : List llm_symbol} {L : Nat} :
    ∀ {p : Int} {o : Nat} {idxs : List Nat}, chainLinked syms L p o idxs →
    ∀ j ∈ idxs, j < syms.length ∧ 0 < (symAt syms (j : Int)).n ∧ p < (j : Int) := by
  intro p o idxs
  induction idxs generalizing p o with
  | nil => intro _ j hj; simp at hj
  | cons i rest ih =>
    intro h j hj
    obtain ⟨hpi, hilen, _, _, hn, _, hrest⟩ := h
    rcases List.mem_cons.mp hj with hj | hj
    · subst hj; exact ⟨hilen, hn, hpi⟩
    · obtain ⟨h1, h2, h3⟩ := ih hrest j hj
      exact ⟨h1, h2, lt_trans hpi h3⟩

theorem chainLinked_o_le {syms : List llm_symbol} {L : Nat} :
    ∀ {p : Int} {o : Nat} {idxs : List Nat}, chainLinked syms L p o idxs → o ≤ L := by
  intro p o idxs
  induction idxs generalizing p o with
  | nil => intro h; exact le_of_eq h
  | cons i rest ih =>
    intro h
    obtain ⟨_, _, _, _, _, _, hrest⟩ := h
    have := ih hrest
    omega

theorem chainLinked_congr {syms syms' : List llm_symbol} {L : Nat}
    (hlen : syms'.length = syms.length) :
    ∀ {p : Int} {o : Nat} {idxs : List Nat},
    (∀ j ∈ idxs, symAt syms' (j : Int) = symAt syms (j : Int)) →
    chainLinked syms L p o idxs → chainLinked syms' L p o idxs := by
  intro p o idxs
  induction idxs generalizing p o with
  | nil => intro _ h; exact h
  | cons i rest ih =>
    intro hagree h
    obtain ⟨hpi, hilen, hprev, hstart, hn, hnext, hrest⟩ := h
    have hi : symAt syms' (i : Int) = symAt syms (i : Int) := hagree i (by simp)
    exact ⟨hpi, by omega, by rw [hi]; exact hprev, by rw [hi]; exact hstart,
      by rw [hi]; exact hn, by rw [hi]; exact hnext,
      by rw [hi]; exact ih (fun j hj => hagree j (by simp [hj])) hrest⟩

theorem chainLinked_pairwise {syms : List llm_symbol} {L : Nat} :
    ∀ {p : Int} {o : Nat} {idxs : List Nat}, chainLinked syms L p o idxs →
    List.Pairwise (· < ·) idxs := by
  intro p o idxs
  induction idxs generalizing p o with
  | nil => intro _; exact List.Pairwise.nil
  | cons i rest ih =>
    intro h
    obtain ⟨_, _, _, _, _, _, hrest⟩ := h
    refine List.Pairwise.cons ?_ (ih hrest)
    intro j hj
    have := (chainLinked_mem hrest j hj).2.2
    exact_mod_cast this

theorem chainLinked_length_le {syms : List llm_symbol} {L : Nat} {p : Int} {o : Nat}
    {idxs : List Nat} (h : chainLinked syms L p o idxs) : idxs.length ≤ syms.length := by
  have hnd : idxs.Nodup := (chainLinked_pairwise h).nodup
  have hsub : idxs ⊆ List.range syms.length := by
    intro j hj
    exact List.mem_range.mpr (chainLinked_mem h j hj).1
  have := (hnd.subperm hsub).length_le
  simpa using this

theorem chainLinked_tiles {syms : List llm_symbol} {L : Nat} :
    ∀ {p : Int} {o : Nat} {idxs : List Nat}, chainLinked syms L p o idxs →
    spansTile syms idxs o L := by
  intro p o idxs
  induction idxs generalizing p o with
  | nil => intro h; exact h
  | cons i rest ih =>
    intro h
    obtain ⟨_, _, _, hstart, _, _, hrest⟩ := h
    exact ⟨hstart, ih hrest⟩

theorem walkChain_of_chain {syms : List llm_symbol} {L : Nat} :
    ∀ {p : Int} {o : Nat} {idxs : List Nat}, chainLinked syms L p o idxs →
    ∀ fuel, idxs.length ≤ fuel →
    walkChain syms fuel (match idxs with | [] => -1 | i :: _ => (i : Int)) = some idxs := by
  intro p o idxs
  induction idxs generalizing p o with
  | nil =>
    intro _ fuel _
    cases fuel <;> simp [walkChain]
  | cons i rest ih =>
    intro h fuel hfuel
    obtain ⟨_, _, _, _, _, hnext, hrest⟩ := h
    cases fuel with
    | zero => simp at hfuel
    | succ fuel =>
      show walkChain syms (fuel + 1) (i : Int) = some (i :: rest)
      unfold walkChain
      rw [if_neg (by omega)]
      rw [hnext]
      rw [ih hrest fuel (by simp at hfuel; omega)]
      simp

theorem chainInv_partition {syms : List llm_symbol} {text : List Nat}
    (h : chainInv syms text.length) : spansPartitionText syms text := by
  obtain ⟨idxs, hhead, hchain, hdead⟩ := h
  refine ⟨idxs, ?_, ?_, ?_, ?_⟩
  · have hfuel : idxs.length ≤ syms.length + 1 := by
      have := chainLinked_length_le hchain
      omega
    have := walkChain_of_chain hchain (syms.length + 1) hfuel
    cases idxs with
    | nil => simp at hhead
    | cons i rest =>
      have hi : i = 0 := by simpa using hhead
      subst hi
      simpa using this
  · intro i hi
    exact (chainLinked_mem hchain i hi).2.1
  · intro j hj hn
    by_contra hmem
    have := hdead j hj hmem
    omega
  · exact chainLinked_tiles hchain

theorem chainLinked_consec_split {syms : List llm_symbol} {L : Nat} :
    ∀ {p : Int} {o : Nat} {idxs : List Nat}, chainLinked syms L p o idxs →
    ∀ l r : Nat, l ∈ idxs → r ∈ idxs → l < r →
    (∀ m ∈ idxs, ¬(l < m ∧ m < r)) →
    ∃ A B, idxs = A ++ l :: r :: B := by
  intro p o idxs
  induction idxs generalizing p o with
  | nil => intro _ l r hl; simp at hl
  | cons i rest ih =>
    intro h l r hl hr hlr hbetween
    obtain ⟨hpi, hilen, hprev, hstart, hn, hnext, hrest⟩ := h
    by_cases hil : i = l
    · subst hil
      have hrrest : r ∈ rest := by
        rcases List.mem_cons.mp hr with hri | hri
        · omega
        · exact hri
      cases rest with
      | nil => simp at hrrest
      | cons j rest' =>
        have hij : (i : Int) < (j : Int) := (chainLinked_mem hrest j (by simp)).2.2
        have hijn : i < j := by exact_mod_cast hij
        have hjr : j = r := by
          rcases List.mem_cons.mp hrrest with hjr | hjr
          · omega
          · obtain ⟨_, _, _, _, _, _, hrest'⟩ := hrest
            have hjm := (chainLinked_mem hrest' r hjr).2.2
            have hjrn : j < r := by exact_mod_cast hjm
            have := hbetween j (by simp)
            omega
        subst hjr
        exact ⟨[], rest', by simp⟩
    · have hlrest : l ∈ rest := by
        rcases List.mem_cons.mp hl with h0 | h0
        · omega
        · exact h0
      have hrrest : r ∈ rest := by
        rcases List.mem_cons.mp hr with h0 | h0
        · have hilv := (chainLinked_mem hrest l hlrest).2.2
          omega
        · exact h0
      obtain ⟨A, B, hAB⟩ := ih hrest l r hlrest hrrest hlr
        (fun m hm => hbetween m (by simp [hm]))
      exact ⟨i :: A, B, by rw [hAB]; simp⟩

theorem chainLinked_of_append {syms : List llm_symbol} {L : Nat} :
    ∀ {A : List Nat} {p : Int} {o : Nat} {X : List Nat},
    chainLinked syms L p o (A ++ X) →
    ∃ p' o', chainLinked syms L p' o' X ∧
      ((A = [] ∧ p' = p ∧ o' = o) ∨
       (∃ a, A.getLast? = some a ∧ p' = (a : Int) ∧
         o' = (symAt syms (a : Int)).start + (symAt syms (a : Int)).n)) := by
  intro A
  induction A with
  | nil =>
    intro p o X h
    exact ⟨p, o, by simpa using h, Or.inl ⟨rfl, rfl, rfl⟩⟩
  | cons a A' ih =>
    intro p o X h
    obtain ⟨_, _, _, hstart, _, _, hrest⟩ := h
    obtain ⟨p', o', hchain, hcase⟩ := ih hrest
    refine ⟨p', o', hchain, Or.inr ?_⟩
    rcases hcase with ⟨hA', hp', ho'⟩ | ⟨b, hb, hp', ho'⟩
    · subst hA'
      exact ⟨a, by simp, hp', by rw [ho', hstart]⟩
    · refine ⟨b, ?_, hp', ho'⟩
      cases A' with
      | nil => simp at hb
      | cons c A'' => rw [List.getLast?_cons_cons]; exact hb

theorem split_pairdata {syms : List llm_symbol} {L : Nat} {idxs A B : List Nat}
    {l r : Nat} (hchain : chainLinked syms L (-1) 0 idxs)
    (hsplit : idxs = A ++ l :: r :: B) :
    l < r ∧
    (symAt syms (r : Int)).start = (symAt syms (l : Int)).start + (symAt syms (l : Int)).n ∧
    (symAt syms (l : Int)).start + (symAt syms (l : Int)).n + (symAt syms (r : Int)).n ≤ L ∧
    (symAt syms (l : Int)).next = (r : Int) ∧
    (symAt syms (r : Int)).prev = (l : Int) ∧
    (B = [] → (symAt syms (r : Int)).next = -1) ∧
    (∀ j B', B = j :: B' → (symAt syms (r : Int)).next = (j : Int)) ∧
    (A = [] → (symAt syms (l : Int)).prev = -1) ∧
    (∀ a, A.getLast? = some a → (symAt syms (l : Int)).prev = (a : Int)) := by
  rw [hsplit] at hchain
  obtain ⟨p', o', hch, hcase⟩ := chainLinked_of_append hchain
  obtain ⟨hpl, hllen, hlprev, hlstart, hln, hlnext, hrest⟩ := hch
  obtain ⟨hlr, hrlen, hrprev, hrstart, hrn, hrnext, hrest'⟩ := hrest
  have hoB := chainLinked_o_le hrest'
  refine ⟨by exact_mod_cast hlr, ?_, ?_, ?_, ?_, ?_, ?_, ?_, ?_⟩
  · rw [hrstart, hlstart]
  · rw [hlstart]
    omega
  · simpa using hlnext
  · exact hrprev
  · intro hB
    subst hB
    simpa using hrnext
  · intro j B' hB
    subst hB
    simpa using hrnext
  · intro hA
    rcases hcase with ⟨_, hp', _⟩ | ⟨a, ha, _, _⟩
    · rw [hlprev, hp']
    · subst hA; simp at ha
  · intro a ha
    rcases hcase with ⟨hA, _, _⟩ | ⟨b, hb, hp', _⟩
    · subst hA; simp at ha
    · rw [hb] at ha
      rw [hlprev, hp']
      simp at ha
      rw [ha]

theorem chainLinked_start_fits {syms : List llm_symbol} {L : Nat} :
    ∀ {p : Int} {o : Nat} {idxs : List Nat}, chainLinked syms L p o idxs →
    ∀ i ∈ idxs, (symAt syms (i : Int)).start + (symAt syms (i : Int)).n ≤ L := by
  intro p o idxs
  induction idxs generalizing p o with
  | nil => intro _ i hi; simp at hi
  | cons j rest ih =>
    intro h i hi
    obtain ⟨_, _, _, hstart, _, _, hrest⟩ := h
    rcases List.mem_cons.mp hi with h0 | h0
    · subst h0
      rw [hstart]
      exact chainLinked_o_le hrest
    · exact ih hrest i h0

theorem split_adjacent {syms : List llm_symbol} {L : Nat} {idxs A B : List Nat}
    {l r : Nat} (hchain : chainLinked syms L (-1) 0 idxs)
    (hdead : deadOutside syms idxs) (hsplit : idxs = A ++ l :: r :: B) :
    adjacentAt syms l r := by
  have hlm : l ∈ idxs := by rw [hsplit]; simp
  have hrm : r ∈ idxs := by rw [hsplit]; simp
  have hl := chainLinked_mem hchain l hlm
  have hr := chainLinked_mem hchain r hrm
  have hpair := chainLinked_pairwise hchain
  rw [hsplit] at hpair
  obtain ⟨hpA, hpC, hpAC⟩ := List.pairwise_append.mp hpair
  have hlr : l < r := List.rel_of_pairwise_cons hpC (by simp)
  refine ⟨⟨hl.1, hl.2.1⟩, ⟨hr.1, hr.2.1⟩, hlr, ?_⟩
  intro m hlm' hmr halive
  have halive2 := halive.2
  have hmem : m ∈ idxs := by
    by_contra hmem
    have := hdead m halive.1 hmem
    omega
  rw [hsplit] at hmem
  rcases List.mem_append.mp hmem with hm | hm
  · have hml : m < l := hpAC m hm l (by simp)
    omega
  · rcases List.mem_cons.mp hm with hm | hm
    · omega
    · rcases List.mem_cons.mp hm with hm | hm
      · omega
      · have hrm' : r < m := List.rel_of_pairwise_cons (List.pairwise_cons.mp hpC).2 hm
        omega

theorem adjacent_split {syms : List llm_symbol} {L : Nat} {idxs : List Nat}
    (hchain : chainLinked syms L (-1) 0 idxs) (hdead : deadOutside syms idxs)
    {l r : Nat} (hadj : adjacentAt syms l r) :
    ∃ A B, idxs = A ++ l :: r :: B := by
  obtain ⟨⟨hllen, hln⟩, ⟨hrlen, hrn⟩, hlr, hbetween⟩ := hadj
  have hlm : l ∈ idxs := by
    by_contra hm
    have := hdead l hllen hm
    omega
  have hrm : r ∈ idxs := by
    by_contra hm
    have := hdead r hrlen hm
    omega
  refine chainLinked_consec_split hchain l r hlm hrm hlr ?_
  intro m hm hc
  have := chainLinked_mem hchain m hm
  exact hbetween m hc.1 hc.2 ⟨this.1, this.2.1⟩

theorem mergeSymbols_length (syms : List llm_symbol) (lft rgt : Int) :
    (mergeSymbols syms lft rgt).length = syms.length := by
  simp only [mergeSymbols]
  split <;> simp [setSym_length]

theorem symAt_merge_of_ne (syms : List llm_symbol) (lft rgt j : Int)
    (hjl : j ≠ lft) (hjr : j ≠ rgt) (hjn : j ≠ (symAt syms rgt).next) :
    symAt (mergeSymbols syms lft rgt) j = symAt syms j := by
  simp only [mergeSymbols]
  split
  · rw [symAt_setSym_ne _ _ _ _ (by omega), symAt_setSym_ne _ _ _ _ (by omega),
      symAt_setSym_ne _ _ _ _ (by omega)]
  · rw [symAt_setSym_ne _ _ _ _ (by omega), symAt_setSym_ne _ _ _ _ (by omega)]

theorem symAt_merge_left (syms : List llm_symbol) (l r : Nat)
    (hlr : l ≠ r) (hllen : l < syms.length)
    (hnext : (symAt syms (r : Int)).next ≠ (l : Int)) :
    symAt (mergeSymbols syms (l : Int) (r : Int)) (l : Int) =
      { symAt syms (l : Int) with
        n := (symAt syms (l : Int)).n + (symAt syms (r : Int)).n,
        next := (symAt syms (r : Int)).next } := by
  simp only [mergeSymbols]
  have hne1 : (r : Int) ≠ (l : Int) := by
    intro h
    exact hlr (by exact_mod_cast h.symm)
  split
  · rw [symAt_setSym_ne _ _ _ _ (by omega)]
    rw [symAt_setSym_ne _ _ _ _ hne1]
    rw [symAt_setSym_self _ _ _ (by positivity) (by simpa using hllen)]
  · rw [symAt_setSym_ne _ _ _ _ hne1]
    rw [symAt_setSym_self _ _ _ (by positivity) (by simpa using hllen)]

theorem symAt_merge_right (syms : List llm_symbol) (l r : Nat)
    (_hlr : l ≠ r) (hrlen : r < syms.length)
    (hnext : (symAt syms (r : Int)).next ≠ (r : Int)) :
    symAt (mergeSymbols syms (l : Int) (r : Int)) (r : Int) =
      { symAt syms (r : Int) with n := 0 } := by
  simp only [mergeSymbols]
  split
  · rw [symAt_setSym_ne _ _ _ _ (by omega)]
    rw [symAt_setSym_self _ _ _ (by positivity) (by simpa [setSym_length] using hrlen)]
  · rw [symAt_setSym_self _ _ _ (by positivity) (by simpa [setSym_length] using hrlen)]

theorem symAt_merge_rnext (syms : List llm_symbol) (l r j : Nat)
    (hj : (symAt syms (r : Int)).next = (j : Int))
    (hjl : j ≠ l) (hjr : j ≠ r) (hjlen : j < syms.length) :
    symAt (mergeSymbols syms (l : Int) (r : Int)) (j : Int) =
      { symAt syms (j : Int) with prev := (l : Int) } := by
  have hjl' : (j : Int) ≠ (l : Int) := by exact_mod_cast fun h => hjl h
  have hjr' : (j : Int) ≠ (r : Int) := by exact_mod_cast fun h => hjr h
  have hgen : ∀ v1 v2 : llm_symbol,
      symAt (setSym (setSym syms (l : Int) v1) (r : Int) v2) (j : Int) =
        symAt syms (j : Int) := by
    intro v1 v2
    rw [symAt_setSym_ne _ _ _ _ (Ne.symm hjr'), symAt_setSym_ne _ _ _ _ (Ne.symm hjl')]
  simp only [mergeSymbols]
  rw [if_pos (by rw [hj]; positivity)]
  rw [hj]
  rw [symAt_setSym_self _ _ _ (by positivity)
    (by simpa [setSym_length] using hjlen)]
  rw [hgen]

theorem chain_next_r {syms : List llm_symbol} {L : Nat} {A : List Nat} {p : Int}
    {o : Nat} {B : List Nat} {l r : Nat}
    (h : chainLinked syms L p o (A ++ l :: r :: B)) :
    (B = [] ∧ (symAt syms (r : Int)).next = -1) ∨
    (∃ j B', B = j :: B' ∧ (symAt syms (r : Int)).next = (j : Int) ∧ r < j) := by
  obtain ⟨p', o', hch, _⟩ := chainLinked_of_append h
  obtain ⟨_, _, _, _, _, _, hrest⟩ := hch
  obtain ⟨_, _, _, _, _, hrnext, hrest'⟩ := hrest
  cases B with
  | nil =>
    left
    exact ⟨rfl, by simpa using hrnext⟩
  | cons j B' =>
    right
    refine ⟨j, B', rfl, by simpa using hrnext, ?_⟩
    have := (chainLinked_mem hrest' j (by simp)).2.2
    exact_mod_cast this

theorem chain_merge {syms : List llm_symbol} {L : Nat} {l r : Nat} :
    ∀ {A : List Nat} {p : Int} {o : Nat} {B : List Nat},
    chainLinked syms L p o (A ++ l :: r :: B) →
    chainLinked (mergeSymbols syms (l : Int) (r : Int)) L p o (A ++ l :: B) := by
  intro A
  induction A with
  | nil =>
    intro p o B h
    have hnextr := chain_next_r (A := []) (by simpa using h)
    obtain ⟨hpl, hllen, hlprev, hlstart, hln, hlnext, hrest⟩ := h
    obtain ⟨hlr, hrlen, hrprev, hrstart, hrn, hrnext, hrest'⟩ := hrest
    have hlrn : l < r := by exact_mod_cast hlr
    have hnl : (symAt syms (r : Int)).next ≠ (l : Int) := by
      rcases hnextr with ⟨_, hn⟩ | ⟨j, B', _, hn, hrj⟩
      · rw [hn]; omega
      · rw [hn]
        intro hc
        have : j = l := by exact_mod_cast hc
        omega
    have hmleft := symAt_merge_left syms l r (by omega) hllen hnl
    rcases hnextr with ⟨hB, hn⟩ | ⟨j, B', hB, hn, hrj⟩
    · subst hB
      have hend : o + (symAt syms (l : Int)).n + (symAt syms (r : Int)).n = L := by
        simpa using hrest'
      show chainLinked (mergeSymbols syms (l : Int) (r : Int)) L p o [l]
      refine ⟨hpl, by rw [mergeSymbols_length]; exact hllen, ?_, ?_, ?_, ?_, ?_⟩
      · rw [hmleft]; exact hlprev
      · rw [hmleft]; exact hlstart
      · rw [hmleft]; simp; omega
      · rw [hmleft]; exact hn
      · show o + (symAt (mergeSymbols syms (l : Int) (r : Int)) (l : Int)).n = L
        rw [hmleft]
        simp
        omega
    · subst hB
      obtain ⟨hrj2, hjlen, hjprev, hjstart, hjn, hjnext, hrest''⟩ := hrest'
      have hmrnext := symAt_merge_rnext syms l r j hn (by omega) (by omega) hjlen
      show chainLinked (mergeSymbols syms (l : Int) (r : Int)) L p o (l :: j :: B')
      refine ⟨hpl, by rw [mergeSymbols_length]; exact hllen, ?_, ?_, ?_, ?_, ?_⟩
      · rw [hmleft]; exact hlprev
      · rw [hmleft]; exact hlstart
      · rw [hmleft]; simp; omega
      · rw [hmleft]; exact hn
      · refine ⟨by exact_mod_cast (by omega : l < j),
          by rw [mergeSymbols_length]; exact hjlen, ?_, ?_, ?_, ?_, ?_⟩
        · rw [hmrnext]
        · rw [hmrnext, hmleft]
          simp [hjstart]
          omega
        · rw [hmrnext]
          simpa using hjn
        · rw [hmrnext]
          simpa using hjnext
        · rw [hmrnext, hmleft]
          simp
          have harith : o + ((symAt syms (l : Int)).n + (symAt syms (r : Int)).n) +
              (symAt syms (j : Int)).n =
              o + (symAt syms (l : Int)).n + (symAt syms (r : Int)).n +
              (symAt syms (j : Int)).n := by omega
          rw [harith]
          refine chainLinked_congr (by rw [mergeSymbols_length]) ?_ hrest''
          intro m hm
          have hjm := (chainLinked_mem hrest'' m hm).2.2
          have hjmn : j < m := by exact_mod_cast hjm
          refine symAt_merge_of_ne syms _ _ _ ?_ ?_ ?_
          · intro hc
            have : m = l := by exact_mod_cast hc
            omega
          · intro hc
            have : m = r := by exact_mod_cast hc
            omega
          · rw [hn]
            intro hc
            have : m = j := by exact_mod_cast hc
            omega
  | cons a A' ih =>
    intro p o B h
    obtain ⟨hpa, halen, haprev, hastart, han, hanext, hrest⟩ := h
    have hnextr := chain_next_r hrest
    have hal : (a : Int) < (l : Int) :=
      (chainLinked_mem hrest l (by simp)).2.2
    have har : (a : Int) < (r : Int) :=
      (chainLinked_mem hrest r (by simp)).2.2
    have hmne : symAt (mergeSymbols syms (l : Int) (r : Int)) (a : Int) =
        symAt syms (a : Int) := by
      refine symAt_merge_of_ne syms _ _ _ (by omega) (by omega) ?_
      rcases hnextr with ⟨_, hn⟩ | ⟨j, B', hB, hn, hrj⟩
      · rw [hn]; omega
      · rw [hn]
        have harn : a < r := by exact_mod_cast har
        have haj : a < j := by omega
        intro hc
        have : a = j := by exact_mod_cast hc
        omega
    show chainLinked (mergeSymbols syms (l : Int) (r : Int)) L p o (a :: (A' ++ l :: B))
    refine ⟨hpa, by rw [mergeSymbols_length]; exact halen, ?_, ?_, ?_, ?_, ?_⟩
    · rw [hmne]; exact haprev
    · rw [hmne]; exact hastart
    · rw [hmne]; exact han
    · rw [hmne]
      rw [hanext]
      cases A' <;> simp
    · rw [hmne]
      exact ih hrest

theorem n_merge_r {syms : List llm_symbol} {L : Nat} {A B : List Nat} {l r : Nat}
    (hchain : chainLinked syms L (-1) 0 (A ++ l :: r :: B)) :
    (symAt (mergeSymbols syms (l : Int) (r : Int)) (r : Int)).n = 0 := by
  have hlr := (split_pairdata hchain rfl).1
  have hrlen := (chainLinked_mem hchain r (by simp)).1
  have hnext : (symAt syms (r : Int)).next ≠ (r : Int) := by
    rcases chain_next_r hchain with ⟨_, hn⟩ | ⟨j, B', _, hn, hrj⟩
    · rw [hn]; omega
    · rw [hn]
      intro hc
      have : j = r := by exact_mod_cast hc
      omega
  rw [symAt_merge_right syms l r (by omega) hrlen hnext]

theorem n_merge_l {syms : List llm_symbol} {L : Nat} {A B : List Nat} {l r : Nat}
    (hchain : chainLinked syms L (-1) 0 (A ++ l :: r :: B)) :
    (symAt (mergeSymbols syms (l : Int) (r : Int)) (l : Int)).n =
      (symAt syms (l : Int)).n + (symAt syms (r : Int)).n := by
  have hlr := (split_pairdata hchain rfl).1
  have hllen := (chainLinked_mem hchain l (by simp)).1
  have hnext : (symAt syms (r : Int)).next ≠ (l : Int) := by
    rcases chain_next_r hchain with ⟨_, hn⟩ | ⟨j, B', _, hn, hrj⟩
    · rw [hn]; omega
    · rw [hn]
      intro hc
      have : j = l := by exact_mod_cast hc
      omega
  rw [symAt_merge_left syms l r (by omega) hllen hnext]

theorem n_merge_other {syms : List llm_symbol} {L : Nat} {A B : List Nat} {l r : Nat}
    (hchain : chainLinked syms L (-1) 0 (A ++ l :: r :: B)) {m : Nat}
    (hml : m ≠ l) (hmr : m ≠ r) :
    (symAt (mergeSymbols syms (l : Int) (r : Int)) (m : Int)).n =
      (symAt syms (m : Int)).n := by
  have hml' : (m : Int) ≠ (l : Int) := by exact_mod_cast fun h => hml h
  have hmr' : (m : Int) ≠ (r : Int) := by exact_mod_cast fun h => hmr h
  rcases chain_next_r hchain with ⟨_, hn⟩ | ⟨j, B', hB, hn, hrj⟩
  · rw [symAt_merge_of_ne syms _ _ _ hml' hmr' (by rw [hn]; omega)]
  · by_cases hmj : m = j
    · subst hmj
      have hjlen : m < syms.length := by
        have : m ∈ A ++ l :: r :: B := by rw [hB]; simp
        exact (chainLinked_mem hchain m this).1
      rw [symAt_merge_rnext syms l r m hn hml hmr hjlen]
    · rw [symAt_merge_of_ne syms _ _ _ hml' hmr'
        (by rw [hn]; exact_mod_cast fun h => hmj (by exact_mod_cast h))]

theorem dead_merge {syms : List llm_symbol} {L : Nat} {A B : List Nat} {l r : Nat}
    (hchain : chainLinked syms L (-1) 0 (A ++ l :: r :: B))
    (hdead : deadOutside syms (A ++ l :: r :: B)) :
    deadOutside (mergeSymbols syms (l : Int) (r : Int)) (A ++ l :: B) := by
  intro m hm hmem
  rw [mergeSymbols_length] at hm
  by_cases hmr : m = r
  · subst hmr
    exact n_merge_r hchain
  · by_cases hml : m = l
    · exfalso
      apply hmem
      subst hml
      simp
    · rw [n_merge_other hchain hml hmr]
      apply hdead m hm
      intro hcon
      apply hmem
      rcases List.mem_append.mp hcon with h0 | h0
      · exact List.mem_append.mpr (Or.inl h0)
      · rcases List.mem_cons.mp h0 with h0 | h0
        · exact List.mem_append.mpr (Or.inr (by simp [h0]))
        · rcases List.mem_cons.mp h0 with h0 | h0
          · omega
          · exact List.mem_append.mpr (Or.inr (by simp [h0]))

theorem adjacent_unique {syms : List llm_symbol} {x y z : Nat}
    (h1 : adjacentAt syms x y) (h2 : adjacentAt syms x z) : y = z := by
  obtain ⟨hax, hay, hxy, hb1⟩ := h1
  obtain ⟨_, haz, hxz, hb2⟩ := h2
  by_contra hne
  rcases Nat.lt_or_ge y z with h | h
  · exact hb2 y hxy h hay
  · have : z < y := by omega
    exact hb1 z hxz this haz

theorem adjacentAt_merge {syms : List llm_symbol} {L : Nat} {A B : List Nat} {l r : Nat}
    (hchain : chainLinked syms L (-1) 0 (A ++ l :: r :: B))
    {x y : Nat} (hadj : adjacentAt syms x y) (hxr : x ≠ r) (hyr : y ≠ r) :
    adjacentAt (mergeSymbols syms (l : Int) (r : Int)) x y := by
  obtain ⟨⟨hxlen, hxn⟩, ⟨hylen, hyn⟩, hxy, hb⟩ := hadj
  have hnl := (chainLinked_mem hchain l (by simp)).2.1
  have hnr := (chainLinked_mem hchain r (by simp)).2.1
  refine ⟨⟨by rw [mergeSymbols_length]; exact hxlen, ?_⟩,
    ⟨by rw [mergeSymbols_length]; exact hylen, ?_⟩, hxy, ?_⟩
  · by_cases hxl : x = l
    · subst hxl
      rw [n_merge_l hchain]
      omega
    · rw [n_merge_other hchain hxl hxr]
      exact hxn
  · by_cases hyl : y = l
    · subst hyl
      rw [n_merge_l hchain]
      omega
    · rw [n_merge_other hchain hyl hyr]
      exact hyn
  · intro m hxm hmy halive
    obtain ⟨hmlen, hmn⟩ := halive
    rw [mergeSymbols_length] at hmlen
    by_cases hmr : m = r
    · subst hmr
      rw [n_merge_r hchain] at hmn
      omega
    · by_cases hml : m = l
      · subst hml
        rw [n_merge_l hchain] at hmn
        exact hb m hxm hmy ⟨hmlen, hnl⟩
      · rw [n_merge_other hchain hml hmr] at hmn
        exact hb m hxm hmy ⟨hmlen, hmn⟩

theorem bigramOK_merge {syms : List llm_symbol} {L : Nat} {A B : List Nat} {l r : Nat}
    (hchain : chainLinked syms L (-1) 0 (A ++ l :: r :: B))
    (hdead : deadOutside syms (A ++ l :: r :: B))
    (x : llm_bigram_spm) (hx : bigramOK syms x) :
    bigramOK (mergeSymbols syms (l : Int) (r : Int)) x := by
  obtain ⟨lx, rx, hlx, hrx, hlrx, hrxlen, himp⟩ := hx
  have hnl := (chainLinked_mem hchain l (by simp)).2.1
  have hnr := (chainLinked_mem hchain r (by simp)).2.1
  have hadjlr : adjacentAt syms l r := split_adjacent hchain hdead rfl
  refine ⟨lx, rx, hlx, hrx, hlrx, by rw [mergeSymbols_length]; exact hrxlen, ?_⟩
  intro hlive1 hlive2
  by_cases hrxr : rx = r
  · exfalso
    subst hrxr
    rw [n_merge_r hchain] at hlive2
    omega
  · by_cases hlxr : lx = r
    · exfalso
      subst hlxr
      rw [n_merge_r hchain] at hlive1
      omega
    · by_cases hlxl : lx = l
      · have hrxl : rx ≠ l := by omega
        have hnlx : 0 < (symAt syms (lx : Int)).n := by rw [hlxl]; exact hnl
        have hlive2' : 0 < (symAt syms (rx : Int)).n := by
          rw [n_merge_other hchain hrxl hrxr] at hlive2
          exact hlive2
        rcases himp hnlx hlive2' with ⟨hadj, _⟩ | hgt
        · exfalso
          rw [hlxl] at hadj
          exact hrxr (adjacent_unique hadjlr hadj).symm
        · right
          rw [hlxl] at hgt ⊢
          rw [n_merge_l hchain, n_merge_other hchain hrxl hrxr]
          omega
      · by_cases hrxl : rx = l
        · have hnrx : 0 < (symAt syms (rx : Int)).n := by rw [hrxl]; exact hnl
          have hlive1' : 0 < (symAt syms (lx : Int)).n := by
            rw [n_merge_other hchain hlxl hlxr] at hlive1
            exact hlive1
          right
          rw [hrxl]
          rw [n_merge_other hchain hlxl hlxr, n_merge_l hchain]
          rcases himp hlive1' hnrx with ⟨hadj, hsum⟩ | hgt
          · rw [hrxl] at hsum
            omega
          · rw [hrxl] at hgt
            omega
        · rw [n_merge_other hchain hlxl hlxr] at hlive1 ⊢
          rw [n_merge_other hchain hrxl hrxr] at hlive2 ⊢
          rcases himp hlive1 hlive2 with ⟨hadj, hsum⟩ | hgt
          · left
            exact ⟨adjacentAt_merge hchain hadj hlxr hrxr, hsum⟩
          · right
            exact hgt

theorem symAt_merge_l' {syms : List llm_symbol} {L : Nat} {A B : List Nat} {l r : Nat}
    (hchain : chainLinked syms L (-1) 0 (A ++ l :: r :: B)) :
    symAt (mergeSymbols syms (l : Int) (r : Int)) (l : Int) =
      { symAt syms (l : Int) with
        n := (symAt syms (l : Int)).n + (symAt syms (r : Int)).n,
        next := (symAt syms (r : Int)).next } := by
  have hlr := (split_pairdata hchain rfl).1
  have hllen := (chainLinked_mem hchain l (by simp)).1
  have hnext : (symAt syms (r : Int)).next ≠ (l : Int) := by
    rcases chain_next_r hchain with ⟨_, hn⟩ | ⟨j, B', _, hn, hrj⟩
    · rw [hn]; omega
    · rw [hn]
      intro hc
      have : j = l := by exact_mod_cast hc
      omega
  exact symAt_merge_left syms l r (by omega) hllen hnext

theorem tryAdd_symbols (vocab : llama_vocab) (text : List Nat)
    (st : llm_tokenizer_spm) (lft rgt : Int) :
    (try_add_bigram vocab text st lft rgt).symbols = st.symbols := by
  simp only [try_add_bigram]
  split
  · rfl
  · split
    · rfl
    · split <;> rfl

theorem tryAdd_revOK (vocab : llama_vocab) (text : List Nat)
    (st : llm_tokenizer_spm) (lft rgt : Int)
    (h : revVocabOK vocab st.rev_merge) :
    revVocabOK vocab (try_add_bigram vocab text st lft rgt).rev_merge := by
  simp only [try_add_bigram]
  split
  · exact h
  · rename_i hguard
    split
    · exact h
    · rename_i id hfind
      split
      · exact h
      · intro e he
        rcases List.mem_cons.mp he with he | he
        · subst he
          simp only
          rw [hfind]
          simp
        · exact h e he

theorem tryAdd_inv {vocab : llama_vocab} {text : List Nat} {st : llm_tokenizer_spm}
    {lft rgt : Int}
    (hchain : chainInv st.symbols text.length)
    (hq : ∀ b ∈ st.work_queue, bigramOK st.symbols b)
    (hlr : lft = -1 ∨ rgt = -1 ∨
      ∃ ln rn : Nat, lft = (ln : Int) ∧ rgt = (rn : Int) ∧ adjacentAt st.symbols ln rn) :
    ∀ b ∈ (try_add_bigram vocab text st lft rgt).work_queue, bigramOK st.symbols b := by
  simp only [try_add_bigram]
  split
  · exact hq
  · rename_i hguard
    push_neg at hguard
    split
    · exact hq
    · rename_i tid hfind
      split
      · exact hq
      · rename_i td hdata
        intro b hb
        rcases List.mem_cons.mp hb with hb | hb
        · subst hb
          rcases hlr with h0 | h0 | ⟨ln, rn, hln, hrn, hadj⟩
          · exact absurd h0 hguard.1
          · exact absurd h0 hguard.2
          · obtain ⟨idxs, hhead, hchainL, hdead⟩ := hchain
            obtain ⟨A, B, hsplit⟩ := adjacent_split hchainL hdead hadj
            rw [hsplit] at hchainL
            have hdata := split_pairdata hchainL rfl
            obtain ⟨⟨hlnlen, hlnn⟩, ⟨hrnlen, hrnn⟩, hlnrn, _⟩ := id hadj
            refine ⟨ln, rn, hln, hrn, hlnrn, hrnlen, ?_⟩
            intro _ _
            left
            refine ⟨hadj, ?_⟩
            subst hln
            subst hrn
            simp only
            have hfits := hdata.2.2.1
            simp
            omega
        · exact hq b hb

theorem spmStep_eq_stale (vocab : llama_vocab) (text : List Nat)
    (st : llm_tokenizer_spm) (bigram : llm_bigram_spm) (rest : List llm_bigram_spm)
    (hpop : popMax st.work_queue = some (bigram, rest))
    (hstale : (symAt st.symbols bigram.left).n = 0 ∨
      (symAt st.symbols bigram.right).n = 0 ∨
      (symAt st.symbols bigram.left).n + (symAt st.symbols bigram.right).n ≠ bigram.size) :
    spmStep vocab text st = some { st with work_queue := rest } := by
  unfold spmStep
  rw [hpop]
  dsimp only
  rw [if_pos hstale]

theorem spmStep_eq_merge (vocab : llama_vocab) (text : List Nat)
    (st : llm_tokenizer_spm) (bigram : llm_bigram_spm) (rest : List llm_bigram_spm)
    (hpop : popMax st.work_queue = some (bigram, rest))
    (hvalid : ¬((symAt st.symbols bigram.left).n = 0 ∨
      (symAt st.symbols bigram.right).n = 0 ∨
      (symAt st.symbols bigram.left).n + (symAt st.symbols bigram.right).n ≠ bigram.size)) :
    spmStep vocab text st = some (try_add_bigram vocab text
      (try_add_bigram vocab text
        { symbols := mergeSymbols st.symbols bigram.left bigram.right,
          work_queue := rest, rev_merge := st.rev_merge }
        (symAt (mergeSymbols st.symbols bigram.left bigram.right) bigram.left).prev
        bigram.left)
      bigram.left
      (symAt (mergeSymbols st.symbols bigram.left bigram.right) bigram.left).next) := by
  unfold spmStep
  rw [hpop]
  dsimp only
  rw [if_neg hvalid]

theorem spmStep_inv {vocab : llama_vocab} {text : List Nat} {st st' : llm_tokenizer_spm}
    (hinv : spmInv text st) (hstep : spmStep vocab text st = some st') :
    spmInv text st' := by
  obtain ⟨hchainInv, hq⟩ := hinv
  cases hpop : popMax st.work_queue with
  | none =>
    unfold spmStep at hstep
    rw [hpop] at hstep
    simp at hstep
  | some p =>
    obtain ⟨bigram, rest⟩ := p
    by_cases hstale : (symAt st.symbols bigram.left).n = 0 ∨
        (symAt st.symbols bigram.right).n = 0 ∨
        (symAt st.symbols bigram.left).n + (symAt st.symbols bigram.right).n ≠ bigram.size
    · rw [spmStep_eq_stale vocab text st bigram rest hpop hstale] at hstep
      have hst' : st' = { st with work_queue := rest } := (Option.some.inj hstep).symm
      subst hst'
      exact ⟨hchainInv, fun b hb => hq b (popMax_rest_mem hpop b hb)⟩
    · rw [spmStep_eq_merge vocab text st bigram rest hpop hstale] at hstep
      have hst' := (Option.some.inj hstep).symm
      push_neg at hstale
      obtain ⟨hnl0, hnr0, hsum⟩ := hstale
      obtain ⟨lx, rx, hlx, hrx, hlrx, hrxlen, himp⟩ := hq bigram (popMax_mem hpop)
      rw [hlx] at hst' hnl0 hsum
      rw [hrx] at hst' hnr0 hsum
      have hnl : 0 < (symAt st.symbols (lx : Int)).n := Nat.pos_of_ne_zero hnl0
      have hnr : 0 < (symAt st.symbols (rx : Int)).n := Nat.pos_of_ne_zero hnr0
      have hadj : adjacentAt st.symbols lx rx := by
        rcases himp hnl hnr with ⟨hadj, _⟩ | hgt
        · exact hadj
        · omega
      obtain ⟨idxs, hhead, hchainL, hdead⟩ := hchainInv
      obtain ⟨A, B, hsplit⟩ := adjacent_split hchainL hdead hadj
      rw [hsplit] at hchainL hdead hhead
      have hchain' := chain_merge hchainL
      have hdead' := dead_merge hchainL hdead
      have hhead' : (A ++ lx :: B).head? = some 0 := by
        cases A with
        | nil => simpa using hhead
        | cons a A' => simpa using hhead
      have hchainInv' : chainInv (mergeSymbols st.symbols (lx : Int) (rx : Int)) text.length :=
        ⟨A ++ lx :: B, hhead', hchain', hdead'⟩
      have hqrest : ∀ b ∈ rest, bigramOK (mergeSymbols st.symbols (lx : Int) (rx : Int)) b :=
        fun b hb => bigramOK_merge hchainL hdead b (hq b (popMax_rest_mem hpop b hb))
      have hmergerec := symAt_merge_l' hchainL
      have hpair := split_pairdata hchainL rfl
      have hprevchar :
          (symAt (mergeSymbols st.symbols (lx : Int) (rx : Int)) (lx : Int)).prev = -1 ∨
          ∃ a : Nat,
            (symAt (mergeSymbols st.symbols (lx : Int) (rx : Int)) (lx : Int)).prev = (a : Int) ∧
            adjacentAt (mergeSymbols st.symbols (lx : Int) (rx : Int)) a lx := by
        rw [hmergerec]
        simp only
        cases hA : A.getLast? with
        | none =>
          left
          have hAnil : A = [] := by simpa using List.getLast?_eq_none_iff.mp hA
          exact hpair.2.2.2.2.2.2.2.1 hAnil
        | some a =>
          right
          refine ⟨a, hpair.2.2.2.2.2.2.2.2 a hA, ?_⟩
          have hAeq : A = A.dropLast ++ [a] := by
            obtain ⟨ys, hys⟩ := List.getLast?_eq_some_iff.mp hA
            rw [hys]
            simp
          refine split_adjacent hchain' hdead' (A := A.dropLast) (B := B) ?_
          conv_lhs => rw [hAeq]
          simp
      have hnextchar :
          (symAt (mergeSymbols st.symbols (lx : Int) (rx : Int)) (lx : Int)).next = -1 ∨
          ∃ j : Nat,
            (symAt (mergeSymbols st.symbols (lx : Int) (rx : Int)) (lx : Int)).next = (j : Int) ∧
            adjacentAt (mergeSymbols st.symbols (lx : Int) (rx : Int)) lx j := by
        rw [hmergerec]
        simp only
        rcases chain_next_r hchainL with ⟨hB, hn⟩ | ⟨j, B', hB, hn, hrj⟩
        · left
          exact hn
        · right
          refine ⟨j, hn, ?_⟩
          refine split_adjacent hchain' hdead' (A := A) (B := B') ?_
          rw [hB]
      subst hst'
      have hc1 : chainInv
          (llm_tokenizer_spm.mk (mergeSymbols st.symbols (lx : Int) (rx : Int))
            rest st.rev_merge).symbols text.length := hchainInv'
      have hq1 : ∀ b ∈ (llm_tokenizer_spm.mk (mergeSymbols st.symbols (lx : Int) (rx : Int))
          rest st.rev_merge).work_queue,
          bigramOK (llm_tokenizer_spm.mk (mergeSymbols st.symbols (lx : Int) (rx : Int))
            rest st.rev_merge).symbols b := hqrest
      have hlr1 : (symAt (mergeSymbols st.symbols (lx : Int) (rx : Int)) (lx : Int)).prev = -1 ∨
          ((lx : Nat) : Int) = -1 ∨
          ∃ ln rn : Nat,
            (symAt (mergeSymbols st.symbols (lx : Int) (rx : Int)) (lx : Int)).prev = (ln : Int) ∧
            ((lx : Nat) : Int) = (rn : Int) ∧
            adjacentAt (llm_tokenizer_spm.mk (mergeSymbols st.symbols (lx : Int) (rx : Int))
              rest st.rev_merge).symbols ln rn := by
        rcases hprevchar with h0 | ⟨a, ha, hadjm⟩
        · exact Or.inl h0
        · exact Or.inr (Or.inr ⟨a, lx, ha, rfl, hadjm⟩)
      have hq2 := @tryAdd_inv vocab text _ _ _ hc1 hq1 hlr1
      have hq2' : ∀ b ∈ (try_add_bigram vocab text
          (llm_tokenizer_spm.mk (mergeSymbols st.symbols (lx : Int) (rx : Int))
            rest st.rev_merge)
          (symAt (mergeSymbols st.symbols (lx : Int) (rx : Int)) (lx : Int)).prev
          (lx : Int)).work_queue,
          bigramOK (try_add_bigram vocab text
            (llm_tokenizer_spm.mk (mergeSymbols st.symbols (lx : Int) (rx : Int))
              rest st.rev_merge)
            (symAt (mergeSymbols st.symbols (lx : Int) (rx : Int)) (lx : Int)).prev
            (lx : Int)).symbols b := by
        intro b hb
        rw [tryAdd_symbols]
        exact hq2 b hb
      have hc2 : chainInv (try_add_bigram vocab text
          (llm_tokenizer_spm.mk (mergeSymbols st.symbols (lx : Int) (rx : Int))
            rest st.rev_merge)
          (symAt (mergeSymbols st.symbols (lx : Int) (rx : Int)) (lx : Int)).prev
          (lx : Int)).symbols text.length := by
        rw [tryAdd_symbols]
        exact hchainInv'
      have hlr2 : ((lx : Nat) : Int) = -1 ∨
          (symAt (mergeSymbols st.symbols (lx : Int) (rx : Int)) (lx : Int)).next = -1 ∨
          ∃ ln rn : Nat, ((lx : Nat) : Int) = (ln : Int) ∧
            (symAt (mergeSymbols st.symbols (lx : Int) (rx : Int)) (lx : Int)).next = (rn : Int) ∧
            adjacentAt (try_add_bigram vocab text
              (llm_tokenizer_spm.mk (mergeSymbols st.symbols (lx : Int) (rx : Int))
                rest st.rev_merge)
              (symAt (mergeSymbols st.symbols (lx : Int) (rx : Int)) (lx : Int)).prev
              (lx : Int)).symbols ln rn := by
        rcases hnextchar with h0 | ⟨j, hj, hadjm⟩
        · exact Or.inr (Or.inl h0)
        · refine Or.inr (Or.inr ⟨lx, j, rfl, hj, ?_⟩)
          rw [tryAdd_symbols]
          exact hadjm
      have hq3 := @tryAdd_inv vocab text _ _ _ hc2 hq2' hlr2
      constructor
      · show chainInv (try_add_bigram _ _ _ _ _).symbols text.length
        rw [tryAdd_symbols, tryAdd_symbols]
        exact hchainInv'
      · intro b hb
        have hres := hq3 b hb
        rw [tryAdd_symbols] at hres
        show bigramOK (try_add_bigram _ _ _ _ _).symbols b
        rw [tryAdd_symbols, tryAdd_symbols]
        exact hres

theorem seed_fold_inv (vocab : llama_vocab) (text : List Nat) :
    ∀ (lst : List Nat) (st : llm_tokenizer_spm),
    chainInv st.symbols text.length →
    (∀ b ∈ st.work_queue, bigramOK st.symbols b) →
    (∀ j, j < st.symbols.length → 0 < (symAt st.symbols (j : Int)).n) →
    (∀ i ∈ lst, 1 ≤ i ∧ i < st.symbols.length) →
    (lst.foldl (fun s i => try_add_bigram vocab text s ((i : Int) - 1) (i : Int)) st).symbols
      = st.symbols ∧
    spmInv text
      (lst.foldl (fun s i => try_add_bigram vocab text s ((i : Int) - 1) (i : Int)) st) := by
  intro lst
  induction lst with
  | nil =>
    intro st hchain hq _ _
    exact ⟨rfl, hchain, hq⟩
  | cons i rest ih =>
    intro st hchain hq halive hbound
    have hib := hbound i (by simp)
    have hsymseq := tryAdd_symbols vocab text st ((i : Int) - 1) (i : Int)
    have hcast : ((i : Int) - 1) = (((i - 1 : Nat)) : Int) := by
      have := hib.1
      omega
    have hadj : adjacentAt st.symbols (i - 1) i := by
      refine ⟨⟨by omega, halive _ (by omega)⟩, ⟨hib.2, halive _ hib.2⟩, by omega, ?_⟩
      intro m h1 h2
      omega
    have hq1 : ∀ b ∈ (try_add_bigram vocab text st ((i : Int) - 1) (i : Int)).work_queue,
        bigramOK (try_add_bigram vocab text st ((i : Int) - 1) (i : Int)).symbols b := by
      intro b hb
      rw [hsymseq]
      refine tryAdd_inv hchain hq ?_ b hb
      exact Or.inr (Or.inr ⟨i - 1, i, hcast, rfl, hadj⟩)
    have hres := ih (try_add_bigram vocab text st ((i : Int) - 1) (i : Int))
      (by rw [hsymseq]; exact hchain) hq1
      (by rw [hsymseq]; exact halive)
      (by rw [hsymseq]; exact fun j hj => hbound j (by simp [hj]))
    have hgoal : (i :: rest).foldl
        (fun s i => try_add_bigram vocab text s ((i : Int) - 1) (i : Int)) st
        = rest.foldl (fun s i => try_add_bigram vocab text s ((i : Int) - 1) (i : Int))
            (try_add_bigram vocab text st ((i : Int) - 1) (i : Int)) := rfl
    rw [hgoal]
    exact ⟨hres.1.trans hsymseq, hres.2⟩

theorem seedBigrams_inv (vocab : llama_vocab) (text : List Nat)
    (st : llm_tokenizer_spm)
    (hchain : chainInv st.symbols text.length)
    (hq : ∀ b ∈ st.work_queue, bigramOK st.symbols b)
    (halive : ∀ j, j < st.symbols.length → 0 < (symAt st.symbols (j : Int)).n) :
    (seedBigrams vocab text st).symbols = st.symbols ∧
    spmInv text (seedBigrams vocab text st) := by
  unfold seedBigrams
  refine seed_fold_inv vocab text _ st hchain hq halive ?_
  intro i hi
  rw [List.mem_range'_1] at hi
  omega

theorem init_chainInv (text : List Nat) (syms0 : List llm_symbol)
    (hsplit : splitSyms text = some syms0) (hne : text ≠ []) :
    chainInv syms0 text.length := by
  have hchain := splitSyms_chain text syms0 hsplit
  have hlen : syms0 ≠ [] := splitSyms_ne_nil text syms0 hsplit hne
  refine ⟨List.range' 0 syms0.length, ?_, hchain, ?_⟩
  · cases hl : syms0.length with
    | zero => exact absurd (List.eq_nil_of_length_eq_zero hl) hlen
    | succ k => rw [List.range'_succ]; rfl
  · intro j hj hmem
    exfalso
    apply hmem
    rw [List.mem_range'_1]
    omega

theorem init_alive (text : List Nat) (syms0 : List llm_symbol)
    (hsplit : splitSyms text = some syms0) :
    ∀ j, j < syms0.length → 0 < (symAt syms0 (j : Int)).n := by
  intro j hj
  have hchain := splitSyms_chain text syms0 hsplit
  exact (chainLinked_mem hchain j (by rw [List.mem_range'_1]; omega)).2.1

theorem spmLoop_inv (vocab : llama_vocab) (text : List Nat) :
    ∀ (k : Nat) (st : llm_tokenizer_spm), spmInv text st →
    spmInv text (spmLoop vocab text k st) := by
  intro k
  induction k with
  | zero => intro st h; exact h
  | succ k ih =>
    intro st h
    unfold spmLoop
    cases hstep : spmStep vocab text st with
    | none => exact h
    | some st' => exact ih st' (spmStep_inv h hstep)

theorem seed_fold_revOK (vocab : llama_vocab) (text : List Nat) :
    ∀ (lst : List Nat) (st : llm_tokenizer_spm), revVocabOK vocab st.rev_merge →
    revVocabOK vocab ((lst.foldl
      (fun s i => try_add_bigram vocab text s ((i : Int) - 1) (i : Int)) st).rev_merge) := by
  intro lst
  induction lst with
  | nil => intro st h; exact h
  | cons i rest ih =>
    intro st h
    exact ih _ (tryAdd_revOK vocab text st _ _ h)

theorem spmStep_revOK {vocab : llama_vocab} {text : List Nat} {st st' : llm_tokenizer_spm}
    (h : revVocabOK vocab st.rev_merge) (hstep : spmStep vocab text st = some st') :
    revVocabOK vocab st'.rev_merge := by
  cases hpop : popMax st.work_queue with
  | none =>
    unfold spmStep at hstep
    rw [hpop] at hstep
    simp at hstep
  | some p =>
    obtain ⟨bigram, rest⟩ := p
    by_cases hstale : (symAt st.symbols bigram.left).n = 0 ∨
        (symAt st.symbols bigram.right).n = 0 ∨
        (symAt st.symbols bigram.left).n + (symAt st.symbols bigram.right).n ≠ bigram.size
    · rw [spmStep_eq_stale vocab text st bigram rest hpop hstale] at hstep
      have hst' : st' = { st with work_queue := rest } := (Option.some.inj hstep).symm
      subst hst'
      exact h
    · rw [spmStep_eq_merge vocab text st bigram rest hpop hstale] at hstep
      have hst' := (Option.some.inj hstep).symm
      subst hst'
      exact tryAdd_revOK vocab text _ _ _ (tryAdd_revOK vocab text _ _ _ h)

theorem spmLoop_revOK (vocab : llama_vocab) (text : List Nat) :
    ∀ (k : Nat) (st : llm_tokenizer_spm), revVocabOK vocab st.rev_merge →
    revVocabOK vocab ((spmLoop vocab text k st).rev_merge) := by
  intro k
  induction k with
  | zero => intro st h; exact h
  | succ k ih =>
    intro st h
    unfold spmLoop
    cases hstep : spmStep vocab text st with
    | none => exact h
    | some st' => exact ih st' (spmStep_revOK h hstep)

theorem resegment_no_fuel_out {vocab : llama_vocab} {text : List Nat}
    {syms : List llm_symbol} {rev : List (List Nat × Int × Int)}
    (hrev : revVocabOK vocab rev) (fuel : Nat) (sym : llm_symbol) :
    resegment vocab text syms rev fuel sym ≠ Except.error tok_err.fuel_out := by
  unfold resegment
  dsimp only
  cases hfind : token_to_id_find vocab ((text.drop sym.start).take sym.n) with
  | some id => simp
  | none =>
    cases hrevf : rev_merge_find rev ((text.drop sym.start).take sym.n) with
    | none =>
      cases hb : byteFallbackIds vocab ((text.drop sym.start).take sym.n) <;> simp
    | some p =>
      exfalso
      unfold rev_merge_find at hrevf
      cases hfq : rev.find? (fun q => q.1 == (text.drop sym.start).take sym.n) with
      | none => rw [hfq] at hrevf; simp at hrevf
      | some e =>
        have hmem := List.mem_of_find?_eq_some hfq
        have heq : e.1 = (text.drop sym.start).take sym.n := by
          have := List.find?_some hfq
          simpa using this
        have := hrev e hmem
        rw [heq] at this
        exact this hfind

theorem splitSymsGo_none (text : List Nat) :
    ∀ fuel offs index, text.length ≤ offs + fuel →
    splitSymsGo text fuel offs index = none →
    ∃ o, offs ≤ o ∧ o < text.length ∧ text.length < o + utf8_len (text.getD o 0) := by
  intro fuel
  induction fuel with
  | zero =>
    intro offs index hle h
    unfold splitSymsGo at h
    rw [if_neg (by omega)] at h
    simp at h
  | succ fuel ih =>
    intro offs index hle h
    unfold splitSymsGo at h
    by_cases hlt : offs < text.length
    · rw [if_pos hlt] at h
      by_cases hfit : offs + utf8_len (text.getD offs 0) ≤ text.length
      · rw [if_pos hfit] at h
        cases hin : splitSymsGo text fuel (offs + utf8_len (text.getD offs 0)) (index + 1) with
        | none =>
          have hpos := utf8_len_pos (text.getD offs 0)
          obtain ⟨o, h1, h2, h3⟩ := ih (offs + utf8_len (text.getD offs 0)) (index + 1)
            (by omega) hin
          exact ⟨o, by omega, h2, h3⟩
        | some rest => rw [hin] at h; simp at h
      · rw [if_neg hfit] at h
        exact ⟨offs, le_refl _, hlt, by omega⟩
    · rw [if_neg hlt] at h
      simp at h

/-- C1 (counterexample): two queued candidates with equal score; the one
popped first by the priority queue is the one with the numerically
*smaller* left span index, contradicting the claim that the larger left
index wins. -/
theorem C1_counterexample :
    (llm_bigram_spm.mk 1 2 1 2).score = (llm_bigram_spm.mk 0 1 1 2).score ∧
    (llm_bigram_spm.mk 0 1 1 2).left < (llm_bigram_spm.mk 1 2 1 2).left ∧
    popMax [llm_bigram_spm.mk 1 2 1 2, llm_bigram_spm.mk 0 1 1 2] =
      some (llm_bigram_spm.mk 0 1 1 2, [llm_bigram_spm.mk 1 2 1 2]) := by
  decide

/-- C1 (amended): the popped candidate maximizes score, and among candidates
of equal score it has the numerically smallest left span index (merging
further left is preferred); higher score always wins over lower score. -/
theorem C1_amended_pop_order {q : List llm_bigram_spm} {m : llm_bigram_spm}
    {rest : List llm_bigram_spm} (hpop : popMax q = some (m, rest)) :
    ∀ b ∈ q, b.score ≤ m.score ∧ (b.score = m.score → m.left ≤ b.left) :=
  popMax_is_max hpop

theorem C1_amended_pop_order_witness :
    (llm_bigram_spm.mk 1 2 1 2).score ≤ (llm_bigram_spm.mk 0 1 1 2).score ∧
    ((llm_bigram_spm.mk 1 2 1 2).score = (llm_bigram_spm.mk 0 1 1 2).score →
      (llm_bigram_spm.mk 0 1 1 2).left ≤ (llm_bigram_spm.mk 1 2 1 2).left) :=
  @C1_amended_pop_order [llm_bigram_spm.mk 1 2 1 2, llm_bigram_spm.mk 0 1 1 2]
    (llm_bigram_spm.mk 0 1 1 2) [llm_bigram_spm.mk 1 2 1 2]
    (by decide) (llm_bigram_spm.mk 1 2 1 2) (by decide)

/-- C2: at every point of the tokenization of a non-empty text — after
span-table construction and seeding (k = 0), after each merge step, and at
termination (large k) — the live spans walked via `next` from span 0 tile
the (possibly escaped) input text exactly once, in order, with no gaps and
no overlaps. -/
theorem C2_partition_invariant (vocab : llama_vocab) (text : List Nat)
    (syms0 : List llm_symbol) (k : Nat)
    (hsplit : splitSyms text = some syms0) (hne : text ≠ []) :
    spansPartitionText
      (spmLoop vocab text k (seedBigrams vocab text ⟨syms0, [], []⟩)).symbols text := by
  have hchain0 := init_chainInv text syms0 hsplit hne
  have halive0 := init_alive text syms0 hsplit
  have hseed := seedBigrams_inv vocab text ⟨syms0, [], []⟩ hchain0
    (by intro b hb; simp at hb) halive0
  have hloop := spmLoop_inv vocab text k _ hseed.2
  exact chainInv_partition hloop.1

theorem C2_partition_invariant_witness :
    spansPartitionText
      (spmLoop exVocabABab [97, 98] 5
        (seedBigrams exVocabABab [97, 98]
          ⟨[⟨-1, 1, 0, 1⟩, ⟨0, -1, 1, 1⟩], [], []⟩)).symbols [97, 98] :=
  C2_partition_invariant exVocabABab [97, 98] [⟨-1, 1, 0, 1⟩, ⟨0, -1, 1, 1⟩] 5
    (by decide) (by decide)

/-- C3: with vocabulary {"a": 1, "b": 1, "ab": 2}, tokenizing "ab" (no bos,
no escaping) yields exactly the id of "ab"; with the vocabulary lacking
"ab", the same text yields the ids of "a" then "b", in original order. -/
theorem C3_concrete_scenarios :
    spm_tokenize exVocabABab [97, 98] false false = Except.ok [2] ∧
    spm_tokenize exVocabAB [97, 98] false false = Except.ok [0, 1] := by
  decide

/-- C4 (counterexample): on the empty text with add_bos = true the function
returns the empty sequence before the bos push, so the result's first
element is not the bos id. -/
theorem C4_counterexample :
    spm_tokenize exVocabABab [] true false = Except.ok [] ∧
    ([] : List Int).head? ≠ some exVocabABab.special_bos_id := by
  decide

/-- C4 (amended): empty input returns the empty sequence without error even
when add_bos is true; for every non-empty text, whenever tokenization with
add_bos = true succeeds, the first element of the result is the configured
special_bos_id. -/
theorem C4_amended_bos_and_empty (vocab : llama_vocab) (text : List Nat) (escape : Bool) :
    spm_tokenize vocab [] true escape = Except.ok [] ∧
    (text ≠ [] → ∀ out, spm_tokenize vocab text true escape = Except.ok out →
      out.head? = some vocab.special_bos_id) := by
  constructor
  · unfold spm_tokenize
    rw [if_pos rfl]
  · intro hne out hok
    unfold spm_tokenize at hok
    rw [if_neg hne] at hok
    cases hv : vocab.type with
    | SPM =>
      rw [hv] at hok
      dsimp only at hok
      cases htok : llm_tokenizer_spm_tokenize vocab
          (if escape then get_llama_escape_whitespac text else text) with
      | error e => rw [htok] at hok; simp [Except.map] at hok
      | ok r =>
        rw [htok] at hok
        simp [Except.map] at hok
        rw [← hok]
        rfl
    | BPE =>
      rw [hv] at hok
      simp at hok

theorem C4_amended_bos_and_empty_witness :
    spm_tokenize exVocabABab [] true false = Except.ok [] ∧
    ([1, 2] : List Int).head? = some exVocabABab.special_bos_id :=
  ⟨(C4_amended_bos_and_empty exVocabABab [97, 98] false).1,
    (C4_amended_bos_and_empty exVocabABab [97, 98] false).2 (by decide) [1, 2] (by decide)⟩

/-- C5 (counterexample): escaping the one-byte text "a" produces the 3-byte
marker followed by "a", not "a" unchanged, so the text actually tokenized
is not merely the input with spaces replaced. -/
theorem C5_counterexample :
    get_llama_escape_whitespac [97] = [226, 150, 129, 97] ∧
    spec_replace_spaces [97] = [97] ∧
    get_llama_escape_whitespac [97] ≠ spec_replace_spaces [97] := by
  decide

/-- C5 (amended): when whitespace-escaping is requested, the text actually
tokenized equals the 3-byte marker \xe2\x96\x81 prepended to the input text
with every ASCII space replaced by that marker, and with no other change. -/
theorem C5_amended_escape (text : List Nat) :
    get_llama_escape_whitespac text = 226 :: 150 :: 129 :: spec_replace_spaces text := by
  unfold get_llama_escape_whitespac
  have hgo : ∀ t : List Nat, escape_ws_go t = spec_replace_spaces t := by
    intro t
    induction t with
    | nil => rfl
    | cons c cs ih =>
      unfold escape_ws_go spec_replace_spaces
      rw [ih]
  rw [hgo]

/-- C8: when the popped candidate references a dead span or its recorded
size is stale, the merge loop silently discards it: the resulting state has
the same span table and merge history, and only the queue shrinks by that
candidate; a merge is applied only when the validity check passes. -/
theorem C8_stale_discarded (vocab : llama_vocab) (text : List Nat)
    (st : llm_tokenizer_spm) (bigram : llm_bigram_spm) (rest : List llm_bigram_spm)
    (hpop : popMax st.work_queue = some (bigram, rest))
    (hstale : (symAt st.symbols bigram.left).n = 0 ∨
      (symAt st.symbols bigram.right).n = 0 ∨
      (symAt st.symbols bigram.left).n + (symAt st.symbols bigram.right).n ≠ bigram.size) :
    spmStep vocab text st = some { st with work_queue := rest } :=
  spmStep_eq_stale vocab text st bigram rest hpop hstale

theorem C8_stale_discarded_witness :
    spmStep exVocabABab [97, 98]
      ⟨[⟨-1, 1, 0, 1⟩, ⟨0, -1, 1, 1⟩], [⟨0, 1, 1, 5⟩], []⟩ =
    some ⟨[⟨-1, 1, 0, 1⟩, ⟨0, -1, 1, 1⟩], [], []⟩ :=
  C8_stale_discarded exVocabABab [97, 98]
    ⟨[⟨-1, 1, 0, 1⟩, ⟨0, -1, 1, 1⟩], [⟨0, 1, 1, 5⟩], []⟩
    ⟨0, 1, 1, 5⟩ [] (by decide) (by decide)

theorem hexVal_hexDigitUpper (x : Nat) (hx : x < 16) :
    hexVal (hexDigitUpper x) = some x := by
  unfold hexVal hexDigitUpper
  by_cases h : x < 10
  · rw [if_pos h, if_pos (by omega)]
    congr 1
    omega
  · rw [if_neg h, if_neg (by omega), if_pos (by omega)]
    congr 1
    omega

theorem strtol16_go_cons {c v : Nat} (h : hexVal c = some v) (cs : List Nat) (acc : Nat) :
    strtol16_go (c :: cs) acc = strtol16_go cs (16 * acc + v) := by
  conv_lhs => unfold strtol16_go
  rw [h]

theorem strtol16_byteTokenDigits (b : Nat) (hb : b < 256) :
    strtol16 [hexDigitUpper (b / 16 % 16), hexDigitUpper (b % 16)] = (b : Int) := by
  interval_cases b <;> decide

/-- C6: for a byte value b whose 6-character byte token <0xHH> (uppercase,
zero-padded hex) is present in the vocabulary with type byte, encoding the
byte with llama_byte_to_token and decoding the resulting id with
llama_token_to_byte round-trips back to b. -/
theorem C6_byte_roundtrip (vocab : llama_vocab) (b : Nat) (id : Int) (s : Rat)
    (hb : b < 256)
    (hfind : token_to_id_find vocab (byteTokenText b) = some id)
    (hdata : tokenDataOf vocab id = some ⟨byteTokenText b, s, llama_token_type.byte⟩) :
    llama_byte_to_token vocab b = some id ∧ llama_token_to_byte vocab id = some b := by
  constructor
  · unfold llama_byte_to_token
    rw [Nat.mod_eq_of_lt hb]
    exact hfind
  · unfold llama_token_to_byte
    rw [hdata]
    dsimp only
    rw [if_pos rfl]
    rw [if_neg (by norm_num [byteTokenText])]
    have hsub : (((byteTokenText b).drop 3).take 2) =
        [hexDigitUpper (b / 16 % 16), hexDigitUpper (b % 16)] := rfl
    rw [hsub, strtol16_byteTokenDigits b hb]
    congr 1
    omega

theorem C6_byte_roundtrip_witness :
    llama_byte_to_token exVocabByte 65 = some 0 ∧
    llama_token_to_byte exVocabByte 0 = some 65 :=
  C6_byte_roundtrip exVocabByte 65 0 0 (by decide) (by decide) (by decide)

/-- C7: the recursive resegment operation terminates for every span and
every state reachable during a tokenization run (any number k of merge
steps from the seeded state): it never exhausts its recursion fuel, not
even a fuel of zero, because every merge-history key is a vocabulary hit
and is therefore already emitted by the vocabulary base case; the only
other outcomes are the two base cases (emit a vocabulary id, or one
byte-fallback id per raw byte). -/
theorem C7_resegment_terminates (vocab : llama_vocab) (text : List Nat)
    (syms0 : List llm_symbol) (k fuel : Nat) (sym : llm_symbol)
    (_hsplit : splitSyms text = some syms0) :
    resegment vocab text
      (spmLoop vocab text k (seedBigrams vocab text ⟨syms0, [], []⟩)).symbols
      (spmLoop vocab text k (seedBigrams vocab text ⟨syms0, [], []⟩)).rev_merge
      fuel sym ≠ Except.error tok_err.fuel_out := by
  have hrev0 : revVocabOK vocab (([] : List (List Nat × Int × Int))) := by
    intro e he
    simp at he
  have hseedrev : revVocabOK vocab (seedBigrams vocab text ⟨syms0, [], []⟩).rev_merge := by
    unfold seedBigrams
    exact seed_fold_revOK vocab text _ ⟨syms0, [], []⟩ hrev0
  have hlooprev := spmLoop_revOK vocab text k _ hseedrev
  exact resegment_no_fuel_out hlooprev fuel sym

theorem C7_resegment_terminates_witness :
    resegment exVocabABab [97, 98]
      (spmLoop exVocabABab [97, 98] 5
        (seedBigrams exVocabABab [97, 98]
          ⟨[⟨-1, 1, 0, 1⟩, ⟨0, -1, 1, 1⟩], [], []⟩)).symbols
      (spmLoop exVocabABab [97, 98] 5
        (seedBigrams exVocabABab [97, 98]
          ⟨[⟨-1, 1, 0, 1⟩, ⟨0, -1, 1, 1⟩], [], []⟩)).rev_merge
      0 ⟨-1, -1, 0, 2⟩ ≠ Except.error tok_err.fuel_out :=
  C7_resegment_terminates exVocabABab [97, 98] [⟨-1, 1, 0, 1⟩, ⟨0, -1, 1, 1⟩] 5 0
    ⟨-1, -1, 0, 2⟩ (by decide)

/-- C10: utf8_len maps every possible leading byte into {1, 2, 3, 4};
a UTF-8 continuation byte (high nibble 8 through 11) gets length 1, so a
lone continuation byte is split into a single one-byte span without error;
and span-table construction rejects an input only when some reached
position's code-point length would run past the end of the text. -/
theorem C10_utf8_acceptance (b : Nat) (text : List Nat) :
    (utf8_len b = 1 ∨ utf8_len b = 2 ∨ utf8_len b = 3 ∨ utf8_len b = 4) ∧
    (8 ≤ (b % 256) >>> 4 → (b % 256) >>> 4 ≤ 11 → utf8_len b = 1) ∧
    (128 ≤ b → b ≤ 191 → splitSyms [b] = some [⟨-1, -1, 0, 1⟩]) ∧
    (splitSyms text = none →
      ∃ o, o < text.length ∧ text.length < o + utf8_len (text.getD o 0)) := by
  refine ⟨utf8_len_cases b, utf8_len_cont b, ?_, ?_⟩
  · intro h1 h2
    have hmod : b % 256 = b := Nat.mod_eq_of_lt (by omega)
    have hlen1 : utf8_len b = 1 := by
      refine utf8_len_cont b ?_ ?_ <;> rw [hmod, Nat.shiftRight_eq_div_pow] <;> omega
    interval_cases b <;> decide
  · intro hnone
    obtain ⟨o, _, h2, h3⟩ := splitSymsGo_none text text.length 0 0 (by omega) hnone
    exact ⟨o, h2, h3⟩

theorem C10_utf8_acceptance_witness :
    utf8_len 128 = 1 ∧
    splitSyms [128] = some [⟨-1, -1, 0, 1⟩] ∧
    (∃ o, o < ([192] : List Nat).length ∧
      ([192] : List Nat).length < o + utf8_len (([192] : List Nat).getD o 0)) :=
  ⟨(C10_utf8_acceptance 128 [192]).2.1 (by decide) (by decide),
   (C10_utf8_acceptance 128 [192]).2.2.1 (by decide) (by decide),
   (C10_utf8_acceptance 128 [192]).2.2.2 (by decide)⟩

theorem token_to_str_normal {vocab : llama_vocab} {token : Int} {td : token_data}
    (hdata : tokenDataOf vocab token = some td)
    (htype : td.type = llama_token_type.normal) (len : Int) :
    llama_token_to_str vocab token len =
      (if len < (((if vocab.type = llama_vocab_type.SPM
          then llama_unescape_whitespace td.text else td.text).length : Int))
        then some (-(((if vocab.type = llama_vocab_type.SPM
          then llama_unescape_whitespace td.text else td.text).length : Int)), [])
        else some (((if vocab.type = llama_vocab_type.SPM
          then llama_unescape_whitespace td.text else td.text).length : Int),
          (if vocab.type = llama_vocab_type.SPM
            then llama_unescape_whitespace td.text else td.text))) := by
  unfold llama_token_to_str
  rw [hdata]
  dsimp only
  rw [if_pos htype]

theorem C9_normal_case {vocab : llama_vocab} {token : Int} {td : token_data}
    (hdata : tokenDataOf vocab token = some td)
    (htype : td.type = llama_token_type.normal) :
    llama_token_to_text vocab token =
      some (if vocab.type = llama_vocab_type.SPM
        then llama_unescape_whitespace td.text else td.text) := by
  unfold llama_token_to_text
  rw [token_to_str_normal hdata htype 8]
  set result := if vocab.type = llama_vocab_type.SPM
    then llama_unescape_whitespace td.text else td.text with hres
  by_cases hc : (8 : Int) < (result.length : Int)
  · rw [if_pos hc]
    dsimp only
    rw [if_pos (by omega)]
    rw [neg_neg]
    rw [token_to_str_normal hdata htype (result.length : Int)]
    rw [← hres]
    rw [if_neg (by omega)]
    dsimp only
    rw [if_pos rfl]
  · rw [if_neg hc]
    dsimp only
    rw [if_neg (by omega)]

/-- C9: for every in-range id, id-to-text conversion is fully determined by
the token's type flag: a normal token emits its stored text with the 3-byte
marker replaced by an ASCII space (only for the SPM vocabulary type); an
unknown token emits the fixed 3-byte replacement glyph; a control token
emits nothing; a byte token emits exactly the single byte reconstructed by
llama_token_to_byte, the reconstruction's substr(3, 2) out-of-range throw
on a stored text shorter than 3 bytes propagating as failure; undefined,
user-defined and unused types emit nothing. -/
theorem C9_token_to_text_by_type (vocab : llama_vocab) (token : Int) (td : token_data)
    (hdata : tokenDataOf vocab token = some td) :
    (td.type = llama_token_type.normal →
      llama_token_to_text vocab token =
        some (if vocab.type = llama_vocab_type.SPM
          then llama_unescape_whitespace td.text else td.text)) ∧
    (td.type = llama_token_type.unknown →
      llama_token_to_text vocab token = some [226, 150, 133]) ∧
    (td.type = llama_token_type.control →
      llama_token_to_text vocab token = some []) ∧
    (td.type = llama_token_type.byte →
      llama_token_to_text vocab token =
        (llama_token_to_byte vocab token).map (fun b => [b])) ∧
    ((td.type = llama_token_type.undefined ∨ td.type = llama_token_type.user_defined ∨
        td.type = llama_token_type.unused) →
      llama_token_to_text vocab token = some []) := by
  refine ⟨fun htype => C9_normal_case hdata htype, fun htype => ?_, fun htype => ?_,
    fun htype => ?_, fun htype => ?_⟩
  · have hstr : llama_token_to_str vocab token 8 = some (3, [226, 150, 133]) := by
      unfold llama_token_to_str
      rw [hdata]
      dsimp only
      rw [if_neg (by rw [htype]; intro h; cases h), if_pos htype, if_neg (by norm_num)]
    unfold llama_token_to_text
    rw [hstr]
    norm_num
  · have hstr : llama_token_to_str vocab token 8 = some (0, []) := by
      unfold llama_token_to_str
      rw [hdata]
      dsimp only
      rw [if_neg (by rw [htype]; intro h; cases h),
        if_neg (by rw [htype]; intro h; cases h), if_pos htype]
    unfold llama_token_to_text
    rw [hstr]
    norm_num
  · cases hbv : llama_token_to_byte vocab token with
    | none =>
      have hstr : llama_token_to_str vocab token 8 = none := by
        unfold llama_token_to_str
        rw [hdata]
        dsimp only
        rw [if_neg (by rw [htype]; intro h; cases h),
          if_neg (by rw [htype]; intro h; cases h),
          if_neg (by rw [htype]; intro h; cases h),
          if_pos htype, if_neg (by norm_num), hbv]
      unfold llama_token_to_text
      rw [hstr]
      rfl
    | some b =>
      have hstr : llama_token_to_str vocab token 8 = some (1, [b]) := by
        unfold llama_token_to_str
        rw [hdata]
        dsimp only
        rw [if_neg (by rw [htype]; intro h; cases h),
          if_neg (by rw [htype]; intro h; cases h),
          if_neg (by rw [htype]; intro h; cases h),
          if_pos htype, if_neg (by norm_num), hbv]
      unfold llama_token_to_text
      rw [hstr]
      norm_num
  · have hstr : llama_token_to_str vocab token 8 = some (0, []) := by
      unfold llama_token_to_str
      rw [hdata]
      dsimp only
      rcases htype with h | h | h <;>
        rw [if_neg (by rw [h]; intro hc; cases hc),
          if_neg (by rw [h]; intro hc; cases hc),
          if_neg (by rw [h]; intro hc; cases hc),
          if_neg (by rw [h]; intro hc; cases hc)]
    unfold llama_token_to_text
    rw [hstr]
    norm_num

theorem C9_token_to_text_by_type_witness :
    llama_token_to_text exVocabByte 1 = some [32, 104, 105] ∧
    llama_token_to_text exVocabByte 2 = some [226, 150, 133] ∧
    llama_token_to_text exVocabByte 3 = some [] ∧
    llama_token_to_text exVocabByte 0 = some [65] ∧
    llama_token_to_text exVocabByte 4 = some [] := by
  refine ⟨?_, ?_, ?_, ?_, ?_⟩
  · have h := (C9_token_to_text_by_type exVocabByte 1
      ⟨[226, 150, 129, 104, 105], -1, llama_token_type.normal⟩ (by decide)).1 rfl
    rw [h]
    decide
  · exact (C9_token_to_text_by_type exVocabByte 2
      ⟨[117, 110, 107], 0, llama_token_type.unknown⟩ (by decide)).2.1 rfl
  · exact (C9_token_to_text_by_type exVocabByte 3
      ⟨[98, 111, 115], 0, llama_token_type.control⟩ (by decide)).2.2.1 rfl
  · have h := (C9_token_to_text_by_type exVocabByte 0
      ⟨[60, 48, 120, 52, 49, 62], 0, llama_token_type.byte⟩ (by decide)).2.2.2.1 rfl
    rw [h]
    decide
  · exact (C9_token_to_text_by_type exVocabByte 4
      ⟨[], 0, llama_token_type.user_defined⟩ (by decide)).2.2.2.2 (Or.inr (Or.inl rfl))

theorem setSym_coe (syms : List llm_symbol) (j : Nat) (v : llm_symbol) :
    setSym syms (j : Int) v = syms.set j v := by
  unfold setSym
  rw [if_pos (by positivity)]
  simp

theorem countP_set (p : llm_symbol → Bool) :
    ∀ (l : List llm_symbol) (i : Nat) (v : llm_symbol), i < l.length →
    (l.set i v).countP p + (if p (l.getD i dummySym) then 1 else 0) =
      l.countP p + (if p v then 1 else 0) := by
  intro l
  induction l with
  | nil => intro i v h; simp at h
  | cons a t ih =>
    intro i v h
    cases i with
    | zero =>
      simp only [List.set, List.countP_cons, List.getD_cons_zero]
      omega
    | succ i =>
      simp only [List.set, List.countP_cons, List.getD_cons_succ]
      have := ih i v (by simpa using h)
      omega

theorem countP_setSym (p : llm_symbol → Bool) (syms : List llm_symbol) (j : Nat)
    (v : llm_symbol) (h : j < syms.length) :
    (setSym syms (j : Int) v).countP p + (if p (symAt syms (j : Int)) then 1 else 0) =
      syms.countP p + (if p v then 1 else 0) := by
  rw [setSym_coe, symAt_coe]
  exact countP_set p syms j v h

theorem liveCount_merge {syms : List llm_symbol} {L : Nat} {A B : List Nat} {l r : Nat}
    (hchain : chainLinked syms L (-1) 0 (A ++ l :: r :: B)) :
    liveCount (mergeSymbols syms (l : Int) (r : Int)) + 1 = liveCount syms := by
  have hlmem := chainLinked_mem hchain l (by simp)
  have hrmem := chainLinked_mem hchain r (by simp)
  have hlr := (split_pairdata hchain rfl).1
  have hlr' : (l : Int) ≠ (r : Int) := by exact_mod_cast fun h => (by omega : l ≠ r) h
  unfold liveCount
  simp only [mergeSymbols]
  have h1 := countP_setSym (fun s => decide (0 < s.n)) syms l
    { symAt syms (l : Int) with
      n := (symAt syms (l : Int)).n + (symAt syms (r : Int)).n,
      next := (symAt syms (r : Int)).next } hlmem.1
  rw [if_pos (by simp; exact hlmem.2.1), if_pos (by simp; omega)] at h1
  set syms1 := setSym syms (l : Int)
    { symAt syms (l : Int) with
      n := (symAt syms (l : Int)).n + (symAt syms (r : Int)).n,
      next := (symAt syms (r : Int)).next } with hsyms1
  have hlen1 : syms1.length = syms.length := setSym_length _ _ _
  have hsym1r : symAt syms1 (r : Int) = symAt syms (r : Int) := by
    rw [hsyms1]
    exact symAt_setSym_ne _ _ _ _ hlr'
  have h2 := countP_setSym (fun s => decide (0 < s.n)) syms1 r
    { symAt syms (r : Int) with n := 0 } (by omega)
  rw [hsym1r, if_pos (by simp; exact hrmem.2.1), if_neg (by simp)] at h2
  set syms2 := setSym syms1 (r : Int) { symAt syms (r : Int) with n := 0 } with hsyms2
  have hlen2 : syms2.length = syms.length := by
    rw [hsyms2, setSym_length]
    omega
  split
  · rename_i hnext
    rcases chain_next_r hchain with ⟨_, hn⟩ | ⟨j, B', hB, hn, hrj⟩
    · rw [hn] at hnext
      omega
    · rw [hn] at hnext ⊢
      have hjmem : j ∈ A ++ l :: r :: B := by rw [hB]; simp
      have hjlen := (chainLinked_mem hchain j hjmem).1
      have h3 := countP_setSym (fun s => decide (0 < s.n)) syms2 j
        { symAt syms2 (j : Int) with prev := (l : Int) } (by omega)
      dsimp only at h3
      by_cases hpj : 0 < (symAt syms2 (j : Int)).n
      · rw [if_pos (by simpa using hpj)] at h3
        omega
      · rw [if_neg (by simpa using hpj)] at h3
        omega
  · omega

theorem tryAdd_queue_len (vocab : llama_vocab) (text : List Nat)
    (st : llm_tokenizer_spm) (lft rgt : Int) :
    (try_add_bigram vocab text st lft rgt).work_queue.length ≤ st.work_queue.length + 1 := by
  simp only [try_add_bigram]
  split
  · omega
  · split
    · omega
    · split
      · omega
      · simp

theorem spmStep_measure {vocab : llama_vocab} {text : List Nat} {st st' : llm_tokenizer_spm}
    (hinv : spmInv text st) (hstep : spmStep vocab text st = some st') :
    spmMeasure st' < spmMeasure st := by
  obtain ⟨hchainInv, hq⟩ := hinv
  cases hpop : popMax st.work_queue with
  | none =>
    unfold spmStep at hstep
    rw [hpop] at hstep
    simp at hstep
  | some p =>
    obtain ⟨bigram, rest⟩ := p
    have hlen := popMax_rest_length hpop
    by_cases hstale : (symAt st.symbols bigram.left).n = 0 ∨
        (symAt st.symbols bigram.right).n = 0 ∨
        (symAt st.symbols bigram.left).n + (symAt st.symbols bigram.right).n ≠ bigram.size
    · rw [spmStep_eq_stale vocab text st bigram rest hpop hstale] at hstep
      have hst' : st' = { st with work_queue := rest } := (Option.some.inj hstep).symm
      subst hst'
      unfold spmMeasure
      simp only
      omega
    · rw [spmStep_eq_merge vocab text st bigram rest hpop hstale] at hstep
      have hst' := (Option.some.inj hstep).symm
      push_neg at hstale
      obtain ⟨hnl0, hnr0, hsum⟩ := hstale
      obtain ⟨lx, rx, hlx, hrx, hlrx, hrxlen, himp⟩ := hq bigram (popMax_mem hpop)
      rw [hlx] at hst' hnl0 hsum
      rw [hrx] at hst' hnr0 hsum
      have hnl : 0 < (symAt st.symbols (lx : Int)).n := Nat.pos_of_ne_zero hnl0
      have hnr : 0 < (symAt st.symbols (rx : Int)).n := Nat.pos_of_ne_zero hnr0
      have hadj : adjacentAt st.symbols lx rx := by
        rcases himp hnl hnr with ⟨hadj, _⟩ | hgt
        · exact hadj
        · omega
      obtain ⟨idxs, hhead, hchainL, hdead⟩ := hchainInv
      obtain ⟨A, B, hsplit⟩ := adjacent_split hchainL hdead hadj
      rw [hsplit] at hchainL
      have hlive := liveCount_merge hchainL
      subst hst'
      unfold spmMeasure
      have hsymeq : (try_add_bigram vocab text
          (try_add_bigram vocab text
            { symbols := mergeSymbols st.symbols (lx : Int) (rx : Int),
              work_queue := rest, rev_merge := st.rev_merge }
            (symAt (mergeSymbols st.symbols (lx : Int) (rx : Int)) (lx : Int)).prev
            (lx : Int))
          (lx : Int)
          (symAt (mergeSymbols st.symbols (lx : Int) (rx : Int)) (lx : Int)).next).symbols =
          mergeSymbols st.symbols (lx : Int) (rx : Int) := by
        rw [tryAdd_symbols, tryAdd_symbols]
      rw [hsymeq]
      have hq1 := tryAdd_queue_len vocab text
        { symbols := mergeSymbols st.symbols (lx : Int) (rx : Int),
          work_queue := rest, rev_merge := st.rev_merge }
        (symAt (mergeSymbols st.symbols (lx : Int) (rx : Int)) (lx : Int)).prev (lx : Int)
      have hq2 := tryAdd_queue_len vocab text
        (try_add_bigram vocab text
          { symbols := mergeSymbols st.symbols (lx : Int) (rx : Int),
            work_queue := rest, rev_merge := st.rev_merge }
          (symAt (mergeSymbols st.symbols (lx : Int) (rx : Int)) (lx : Int)).prev
          (lx : Int))
        (lx : Int) (symAt (mergeSymbols st.symbols (lx : Int) (rx : Int)) (lx : Int)).next
      simp only at hq1
      omega

theorem spmLoop_fix (vocab : llama_vocab) (text : List Nat) :
    ∀ (fuel : Nat) (st : llm_tokenizer_spm), spmInv text st → spmMeasure st ≤ fuel →
    spmStep vocab text (spmLoop vocab text fuel st) = none := by
  intro fuel
  induction fuel with
  | zero =>
    intro st _ hm
    have hqnil : st.work_queue = [] := by
      unfold spmMeasure at hm
      have : st.work_queue.length = 0 := by omega
      exact List.eq_nil_of_length_eq_zero this
    show spmStep vocab text st = none
    unfold spmStep
    rw [hqnil]
    rfl
  | succ fuel ih =>
    intro st hinv hm
    unfold spmLoop
    cases hstep : spmStep vocab text st with
    | none => exact hstep
    | some st' =>
      have hlt := spmStep_measure hinv hstep
      exact ih st' (spmStep_inv hinv hstep) (by omega)

/-- The fuel passed to the merge loop by `llm_tokenizer_spm_tokenize`
reaches the loop's fixpoint: after it, the queue is exhausted, exactly as
the unbounded C++ `while (!work_queue.empty())` loop ends. -/
theorem tokenize_loop_complete (vocab : llama_vocab) (text : List Nat)
    (syms0 : List llm_symbol) (hsplit : splitSyms text = some syms0) (hne : text ≠ []) :
    spmStep vocab text
      (spmLoop vocab text
        (3 * (seedBigrams vocab text ⟨syms0, [], []⟩).symbols.length +
          (seedBigrams vocab text ⟨syms0, [], []⟩).work_queue.length + 1)
        (seedBigrams vocab text ⟨syms0, [], []⟩)) = none := by
  have hchain0 := init_chainInv text syms0 hsplit hne
  have halive0 := init_alive text syms0 hsplit
  have hseed := seedBigrams_inv vocab text ⟨syms0, [], []⟩ hchain0
    (by intro b hb; simp at hb) halive0
  refine spmLoop_fix vocab text _ _ hseed.2 ?_
  unfold spmMeasure
  have hcount : liveCount (seedBigrams vocab text ⟨syms0, [], []⟩).symbols ≤
      (seedBigrams vocab text ⟨syms0, [], []⟩).symbols.length :=
    List.countP_le_length _
  omega
